import Mathlib

/-!
Verification of the indicator-clustering pipeline of `process_indicators.py`
(repository `cgiar-ppu/tocs_pathways`).

The pipeline's pure logic is embedded shallowly:

* `preprocess_text` mirrors the Python function of the same name
  (lowercasing, replacement of non-word/non-space characters by a space,
  collapsing of whitespace runs, trimming), restricted to the ASCII
  fragment of Python's regular-expression classes `\w` and `\s`.
* `cluster_indicators` mirrors the greedy clustering scan.  The two
  external `sklearn` calls (`TfidfVectorizer.fit_transform` and
  `cosine_similarity`) are modelled as prescribed by the repository
  specification, which directs that external numeric calls be treated
  as an injected interface: the similarity matrix is a parameter
  `sim : ℕ → ℕ → ℚ`, while the computable part of the vectorizer that
  decides success or failure (tokenization, stop-word removal and the
  empty-vocabulary check of `fit_transform`) is embedded concretely.
* the merge/export stage of `main` and the topic-naming stage of
  `perform_bertopic_clustering` are embedded with the opaque model
  outputs (topic ids, per-topic term lists) as parameters.
-/

/-! ## Character-level text normalisation (`preprocess_text`) -/

/-- ASCII fragment of the regex class `\s` used by `re.sub` in
`preprocess_text`: space, tab, newline, carriage return, vertical tab,
form feed. -/
def isSpaceChar (c : Char) : Bool :=
  c == ' ' || c == '\t' || c == '\n' || c == '\r' || c == '\x0b' || c == '\x0c'

/-- ASCII fragment of the regex class `\w`: letters, digits and the
underscore. -/
def isWordChar (c : Char) : Bool :=
  c.isAlphanum || c == '_'

/-- One character of `re.sub(r'[^\w\s]', ' ', text)`: characters that are
neither word nor space characters are replaced by a space. -/
def replChar (c : Char) : Char :=
  if isWordChar c || isSpaceChar c then c else ' '

/-- `re.sub(r'\s+', ' ', text)`: every maximal run of whitespace is
replaced by a single space.  The boolean flag records whether the
previous character belonged to a whitespace run. -/
def collapseWs : List Char → Bool → List Char
  | [], _ => []
  | c :: cs, prevSpace =>
    if isSpaceChar c then
      if prevSpace then collapseWs cs true else ' ' :: collapseWs cs true
    else c :: collapseWs cs false

/-- Python's `str.strip()`: whitespace removed from both ends. -/
def stripChars (l : List Char) : List Char :=
  ((l.dropWhile isSpaceChar).reverse.dropWhile isSpaceChar).reverse

/-- The character-list body of `preprocess_text`: lowercase, replace
non-word/non-space characters, collapse whitespace runs, strip. -/
def normalizeChars (l : List Char) : List Char :=
  stripChars (collapseWs ((l.map Char.toLower).map replChar) false)

/-- Shallow embedding of `preprocess_text` (`process_indicators.py`,
lines 11-19).  A missing value (`pd.isna`) is modelled by `none` and
yields `""`; otherwise the text is lowercased, every non-word/non-space
character is replaced by a space, whitespace runs are collapsed and the
result is stripped. -/
def preprocess_text : Option String → String
  | none => ""
  | some t => String.mk (normalizeChars t.data)

/-! ### Character lemmas -/

theorem char_toNat_ofNat (n : Nat) (h : n.isValidChar) :
    (Char.ofNat n).toNat = n := by
  rw [Char.ofNat, dif_pos h]
  rfl

theorem toLower_toLower (c : Char) : (Char.toLower c).toLower = c.toLower := by
  unfold Char.toLower
  by_cases h : c.toNat ≥ 65 ∧ c.toNat ≤ 90
  · rw [if_pos h]
    have hv : (c.toNat + 32).isValidChar := Or.inl (by omega)
    rw [char_toNat_ofNat _ hv, if_neg (by omega)]
  · rw [if_neg h, if_neg h]

theorem toLower_space : Char.toLower ' ' = ' ' := by decide

/-! ### Properties of `collapseWs` -/

/-- Characters emitted by `collapseWs` are either the single space used
to replace a whitespace run, or non-space characters of the input. -/
theorem mem_collapseWs {c : Char} :
    ∀ {l : List Char} {b : Bool}, c ∈ collapseWs l b →
      c = ' ' ∨ (c ∈ l ∧ isSpaceChar c = false) := by
  intro l
  induction l with
  | nil => intro b h; simp [collapseWs] at h
  | cons a l ih =>
    intro b h
    by_cases ha : isSpaceChar a
    · simp only [collapseWs, ha, if_true] at h
      cases b with
      | true =>
        rcases ih h with h' | h'
        · exact Or.inl h'
        · exact Or.inr ⟨List.mem_cons_of_mem _ h'.1, h'.2⟩
      | false =>
        rcases List.mem_cons.mp h with h' | h'
        · exact Or.inl h'
        · rcases ih h' with h'' | h''
          · exact Or.inl h''
          · exact Or.inr ⟨List.mem_cons_of_mem _ h''.1, h''.2⟩
    · simp only [collapseWs, ha, if_false] at h
      rcases List.mem_cons.mp h with h' | h'
      · subst h'
        exact Or.inr ⟨List.mem_cons_self _ _, by simpa using ha⟩
      · rcases ih h' with h'' | h''
        · exact Or.inl h''
        · exact Or.inr ⟨List.mem_cons_of_mem _ h''.1, h''.2⟩

/-- After a whitespace run has just been replaced, the next emitted
character is not a space. -/
theorem head?_collapseWs_true {c : Char} :
    ∀ {l : List Char}, (collapseWs l true).head? = some c → isSpaceChar c = false := by
  intro l
  induction l with
  | nil => intro h; simp [collapseWs] at h
  | cons a l ih =>
    intro h
    by_cases ha : isSpaceChar a
    · simp only [collapseWs, ha, if_true] at h
      exact ih h
    · have haf : isSpaceChar a = false := by simpa using ha
      simp only [collapseWs, haf, Bool.false_eq_true, if_false, List.head?_cons,
        Option.some.injEq] at h
      subst h
      exact haf

/-- The output of `collapseWs` never contains two adjacent space
characters. -/
theorem chain'_collapseWs :
    ∀ (l : List Char) (b : Bool),
      List.Chain' (fun a c => isSpaceChar a = false ∨ isSpaceChar c = false)
        (collapseWs l b) := by
  intro l
  induction l with
  | nil => intro b; simp [collapseWs]
  | cons a l ih =>
    intro b
    by_cases ha : isSpaceChar a
    · cases b with
      | true =>
        simpa only [collapseWs, ha, if_true] using ih true
      | false =>
        simp only [collapseWs, ha, if_true]
        refine List.chain'_cons'.mpr ⟨?_, ih true⟩
        intro y hy
        exact Or.inr (head?_collapseWs_true hy)
    · simp only [collapseWs, ha, if_false]
      refine List.chain'_cons'.mpr ⟨?_, ih false⟩
      intro y _
      exact Or.inl (by simpa using ha)

/-- If the head of a list is not a space, collapsing with either flag
value gives the same result. -/
theorem collapseWs_true_eq_false :
    ∀ (l : List Char), (∀ c, l.head? = some c → isSpaceChar c = false) →
      collapseWs l true = collapseWs l false := by
  intro l h
  cases l with
  | nil => rfl
  | cons a l =>
    have ha : isSpaceChar a = false := h a rfl
    simp [collapseWs, ha]

/-- `collapseWs` is the identity on lists whose space characters are all
the plain space and which contain no two adjacent spaces. -/
theorem collapseWs_id :
    ∀ (l : List Char),
      (∀ c ∈ l, isSpaceChar c = true → c = ' ') →
      List.Chain' (fun a c => isSpaceChar a = false ∨ isSpaceChar c = false) l →
      collapseWs l false = l := by
  intro l
  induction l with
  | nil => intro _ _; rfl
  | cons a l ih =>
    intro hsp hch
    have hch' : List.Chain' (fun a c => isSpaceChar a = false ∨ isSpaceChar c = false) l :=
      (List.chain'_cons'.mp hch).2
    by_cases ha : isSpaceChar a
    · have ha' : a = ' ' := hsp a (List.mem_cons_self _ _) ha
      have hhead : ∀ c, l.head? = some c → isSpaceChar c = false := by
        intro c hc
        rcases (List.chain'_cons'.mp hch).1 c hc with h' | h'
        · exact absurd ha (by simp [h'])
        · exact h'
      simp only [collapseWs, ha, if_true, Bool.false_eq_true, if_false]
      rw [collapseWs_true_eq_false l hhead,
        ih (fun c hc h' => hsp c (List.mem_cons_of_mem _ hc) h') hch', ha']
    · have haf : isSpaceChar a = false := by simpa using ha
      simp only [collapseWs, haf, Bool.false_eq_true, if_false]
      rw [ih (fun c hc h' => hsp c (List.mem_cons_of_mem _ hc) h') hch']

/-! ### Properties of `stripChars` -/

theorem head?_dropWhile_not (p : Char → Bool) :
    ∀ (l : List Char) {c : Char}, (l.dropWhile p).head? = some c → p c = false := by
  intro l
  induction l with
  | nil => intro c h; simp at h
  | cons a l ih =>
    intro c h
    rw [List.dropWhile_cons] at h
    by_cases hpa : p a
    · rw [if_pos hpa] at h
      exact ih h
    · rw [if_neg hpa, List.head?_cons, Option.some.injEq] at h
      subst h
      simpa using hpa

theorem dropWhile_eq_self_of_head (p : Char → Bool) (l : List Char)
    (h : ∀ c, l.head? = some c → p c = false) : l.dropWhile p = l := by
  cases l with
  | nil => rfl
  | cons a l =>
    rw [List.dropWhile_cons, if_neg]
    simp [h a rfl]

theorem mem_stripChars {c : Char} {l : List Char} (h : c ∈ stripChars l) : c ∈ l := by
  unfold stripChars at h
  rw [List.mem_reverse] at h
  have h1 : c ∈ (l.dropWhile isSpaceChar).reverse :=
    (List.dropWhile_suffix isSpaceChar).sublist.mem h
  rw [List.mem_reverse] at h1
  exact (List.dropWhile_suffix isSpaceChar).sublist.mem h1

theorem chain'_stripChars {R : Char → Char → Prop} (hR : ∀ a b, R a b → R b a)
    {l : List Char} (h : List.Chain' R l) : List.Chain' R (stripChars l) := by
  unfold stripChars
  have h1 : List.Chain' R (l.dropWhile isSpaceChar) :=
    h.suffix (List.dropWhile_suffix isSpaceChar)
  have h2 : List.Chain' R ((l.dropWhile isSpaceChar).reverse) :=
    List.chain'_reverse.mpr (h1.imp (fun a b hab => hR a b hab))
  have h3 : List.Chain' R (((l.dropWhile isSpaceChar).reverse).dropWhile isSpaceChar) :=
    h2.suffix (List.dropWhile_suffix isSpaceChar)
  exact List.chain'_reverse.mpr (h3.imp (fun a b hab => hR a b hab))

theorem getLast?_stripChars {l : List Char} {c : Char}
    (h : (stripChars l).getLast? = some c) : isSpaceChar c = false := by
  unfold stripChars at h
  rw [List.getLast?_reverse] at h
  exact head?_dropWhile_not _ _ h

theorem head?_stripChars {l : List Char} {c : Char}
    (h : (stripChars l).head? = some c) : isSpaceChar c = false := by
  unfold stripChars at h
  set u := l.dropWhile isSpaceChar with hu
  set v := u.reverse.dropWhile isSpaceChar with hv
  have hsuf : v <:+ u.reverse := List.dropWhile_suffix isSpaceChar
  have hpre : v.reverse <+: u := by
    rw [← List.reverse_reverse v] at hsuf
    exact List.reverse_suffix.mp (by simpa using hsuf)
  rcases hpre with ⟨t, ht⟩
  have hu' : u.head? = some c := by
    rw [← ht, List.head?_append, h]
    rfl
  exact head?_dropWhile_not _ _ hu'

theorem stripChars_id {l : List Char}
    (hh : ∀ c, l.head? = some c → isSpaceChar c = false)
    (hl : ∀ c, l.getLast? = some c → isSpaceChar c = false) : stripChars l = l := by
  unfold stripChars
  rw [dropWhile_eq_self_of_head _ _ hh]
  rw [dropWhile_eq_self_of_head _ _ (by
    intro c hc
    rw [List.head?_reverse] at hc
    exact hl c hc)]
  exact List.reverse_reverse l

/-! ### Characterisation of the normalised output -/

theorem spaces_normalizeChars {l : List Char} {c : Char} (h : c ∈ normalizeChars l)
    (hsp : isSpaceChar c = true) : c = ' ' := by
  have h1 := mem_stripChars h
  rcases mem_collapseWs h1 with h2 | h2
  · exact h2
  · rw [h2.2] at hsp
    cases hsp

theorem goodChar_normalizeChars {l : List Char} {c : Char} (h : c ∈ normalizeChars l) :
    (isWordChar c = true ∧ Char.toLower c = c) ∨ c = ' ' := by
  by_cases hsp : isSpaceChar c = true
  · exact Or.inr (spaces_normalizeChars h hsp)
  · left
    have h1 := mem_stripChars h
    rcases mem_collapseWs h1 with h2 | h2
    · subst h2
      simp [isSpaceChar] at hsp
    · obtain ⟨hc3, hns⟩ := h2
      rcases List.mem_map.mp hc3 with ⟨b, hb, hcb⟩
      rcases List.mem_map.mp hb with ⟨a, _, hba⟩
      unfold replChar at hcb
      by_cases hk : isWordChar b || isSpaceChar b
      · rw [if_pos hk] at hcb
        subst hcb
        have hw : isWordChar b = true := by
          rcases Bool.or_eq_true_iff.mp hk with h' | h'
          · exact h'
          · rw [h'] at hns
            cases hns
        refine ⟨hw, ?_⟩
        rw [← hba]
        exact toLower_toLower a
      · rw [if_neg hk] at hcb
        subst hcb
        simp [isSpaceChar] at hsp

theorem chain'_normalizeChars (l : List Char) :
    List.Chain' (fun a c => isSpaceChar a = false ∨ isSpaceChar c = false)
      (normalizeChars l) :=
  chain'_stripChars (fun _ _ hab => hab.symm) (chain'_collapseWs _ _)

theorem normalizeChars_idem (l : List Char) :
    normalizeChars (normalizeChars l) = normalizeChars l := by
  have hmap1 : (normalizeChars l).map Char.toLower = normalizeChars l := by
    have heq : (normalizeChars l).map Char.toLower = (normalizeChars l).map id := by
      refine List.map_congr_left ?_
      intro c hc
      rcases goodChar_normalizeChars hc with h | h
      · exact h.2
      · rw [h]
        exact toLower_space
    rw [heq, List.map_id]
  have hmap2 : (normalizeChars l).map replChar = normalizeChars l := by
    have heq : (normalizeChars l).map replChar = (normalizeChars l).map id := by
      refine List.map_congr_left ?_
      intro c hc
      rcases goodChar_normalizeChars hc with h | h
      · unfold replChar
        rw [if_pos (by rw [h.1]; rfl)]
        rfl
      · unfold replChar
        rw [if_pos (by rw [h]; decide)]
        rfl
    rw [heq, List.map_id]
  conv_lhs => rw [normalizeChars]
  rw [hmap1, hmap2]
  rw [collapseWs_id _ (fun c hc h' => spaces_normalizeChars hc h') (chain'_normalizeChars l)]
  unfold normalizeChars
  exact stripChars_id (fun c hc => head?_stripChars hc) (fun c hc => getLast?_stripChars hc)

/-! ### Claims C4 and C5 -/

/-- C4: `preprocess_text` is total; a missing input yields `""`; any text
input is lowercased with every non-word/non-space character replaced by a
space, whitespace runs collapsed to one space, and the result trimmed.
The output characters are lowercase word characters or single separating
spaces, no two spaces are adjacent, and the output neither starts nor
ends with a space; in particular `preprocess_text none = ""` and
`preprocess_text (some "A, B!!  C") = "a b c"`. -/
theorem preprocess_text_spec :
    preprocess_text none = "" ∧
    preprocess_text (some "A, B!!  C") = "a b c" ∧
    (∀ s : String, ∀ c ∈ (preprocess_text (some s)).data,
      (isWordChar c = true ∧ Char.toLower c = c) ∨ c = ' ') ∧
    (∀ s : String, List.Chain' (fun a c => isSpaceChar a = false ∨ isSpaceChar c = false)
      (preprocess_text (some s)).data) ∧
    (∀ s : String, ∀ c, (preprocess_text (some s)).data.head? = some c →
      isSpaceChar c = false) ∧
    (∀ s : String, ∀ c, (preprocess_text (some s)).data.getLast? = some c →
      isSpaceChar c = false) := by
  refine ⟨rfl, by decide, ?_, ?_, ?_, ?_⟩
  · intro s c hc
    exact goodChar_normalizeChars hc
  · intro s
    exact chain'_normalizeChars s.data
  · intro s c hc
    exact head?_stripChars hc
  · intro s c hc
    exact getLast?_stripChars hc

theorem preprocess_text_spec_witness :
    (isWordChar 'a' = true ∧ Char.toLower 'a' = 'a') ∨ 'a' = ' ' :=
  preprocess_text_spec.2.2.1 "A!" 'a' (by decide)

/-- C5: `preprocess_text` is idempotent on text inputs: running the
normaliser on its own output returns that output unchanged. -/
theorem preprocess_text_idempotent (x : String) :
    preprocess_text (some (preprocess_text (some x))) = preprocess_text (some x) :=
  congrArg String.mk (normalizeChars_idem x.data)

/-! ## The TF-IDF vectorizer's computable part: tokenization and vocabulary

`cluster_indicators` calls `TfidfVectorizer(min_df=1, stop_words='english')`
followed by `cosine_similarity`.  The numeric output is modelled as the
injected similarity matrix below; the part of `fit_transform` that decides
success or failure is its vocabulary construction: tokens are maximal runs
of word characters of length at least two (the default token pattern),
stop words are removed, and an empty vocabulary raises `ValueError`. -/

/-- Maximal runs of word characters of a character list; the accumulator
holds the current run, reversed. -/
def wordRunsAux : List Char → List Char → List (List Char)
  | [], acc => if acc.isEmpty then [] else [acc.reverse]
  | c :: cs, acc =>
    if isWordChar c then wordRunsAux cs (c :: acc)
    else if acc.isEmpty then wordRunsAux cs []
    else acc.reverse :: wordRunsAux cs []

/-- The default `scikit-learn` token pattern `\b\w\w+\b`: maximal word
character runs of length at least 2. -/
def sklearnTokenize (s : String) : List String :=
  ((wordRunsAux s.data []).filter (fun r => 2 ≤ r.length)).map (fun r => String.mk r)

/-- The `scikit-learn` built-in English stop-word list selected by
`stop_words='english'`. -/
def ENGLISH_STOP_WORDS : List String :=
  ["a", "about", "above", "across", "after", "afterwards", "again", "against",
   "all", "almost", "alone", "along", "already", "also", "although", "always",
   "am", "among", "amongst", "amoungst", "amount", "an", "and", "another",
   "any", "anyhow", "anyone", "anything", "anyway", "anywhere", "are", "around",
   "as", "at", "back", "be", "became", "because", "become", "becomes",
   "becoming", "been", "before", "beforehand", "behind", "being", "below",
   "beside", "besides", "between", "beyond", "bill", "both", "bottom", "but",
   "by", "call", "can", "cannot", "cant", "co", "con", "could", "couldnt",
   "cry", "de", "describe", "detail", "do", "done", "down", "due", "during",
   "each", "eg", "eight", "either", "eleven", "else", "elsewhere", "empty",
   "enough", "etc", "even", "ever", "every", "everyone", "everything",
   "everywhere", "except", "few", "fifteen", "fifty", "fill", "find", "fire",
   "first", "five", "for", "former", "formerly", "forty", "found", "four",
   "from", "front", "full", "further", "get", "give", "go", "had", "has",
   "hasnt", "have", "he", "hence", "her", "here", "hereafter", "hereby",
   "herein", "hereupon", "hers", "herself", "him", "himself", "his", "how",
   "however", "hundred", "i", "ie", "if", "in", "inc", "indeed", "interest",
   "into", "is", "it", "its", "itself", "keep", "last", "latter", "latterly",
   "least", "less", "ltd", "made", "many", "may", "me", "meanwhile", "might",
   "mill", "mine", "more", "moreover", "most", "mostly", "move", "much",
   "must", "my", "myself", "name", "namely", "neither", "never",
   "nevertheless", "next", "nine", "no", "nobody", "none", "noone", "nor",
   "not", "nothing", "now", "nowhere", "of", "off", "often", "on", "once",
   "one", "only", "onto", "or", "other", "others", "otherwise", "our", "ours",
   "ourselves", "out", "over", "own", "part", "per", "perhaps", "please",
   "put", "rather", "re", "same", "see", "seem", "seemed", "seeming", "seems",
   "serious", "several", "she", "should", "show", "side", "since", "sincere",
   "six", "sixty", "so", "some", "somehow", "someone", "something",
   "sometime", "sometimes", "somewhere", "still", "such", "system", "take",
   "ten", "than", "that", "the", "their", "them", "themselves", "then",
   "thence", "there", "thereafter", "thereby", "therefore", "therein",
   "thereupon", "these", "they", "thick", "thin", "third", "this", "those",
   "though", "three", "through", "throughout", "thru", "thus", "to",
   "together", "too", "top", "toward", "towards", "twelve", "twenty", "two",
   "un", "under", "until", "up", "upon", "us", "very", "via", "was", "we",
   "well", "were", "what", "whatever", "when", "whence", "whenever", "where",
   "whereafter", "whereas", "whereby", "wherein", "whereupon", "wherever",
   "whether", "which", "while", "whither", "who", "whoever", "whole", "whom",
   "whose", "why", "will", "with", "within", "without", "would", "yet", "you",
   "your", "yours", "yourself", "yourselves"]

/-- The vocabulary `fit` builds over the corpus: all tokens of all
documents, stop words removed, deduplicated. -/
def buildVocabulary (docs : List String) : List String :=
  (((docs.map sklearnTokenize).flatten).filter
      (fun w => !(ENGLISH_STOP_WORDS.contains w))).eraseDups

/-! ## Python dictionaries as association lists -/

/-- Assignment `d[k] = v` on a Python dict: an existing key keeps its
position and gets the new value, a new key is appended. -/
def dictInsert {κ ν : Type} [DecidableEq κ] (k : κ) (v : ν) :
    List (κ × ν) → List (κ × ν)
  | [] => [(k, v)]
  | p :: rest => if p.1 = k then (k, v) :: rest else p :: dictInsert k v rest

/-- Lookup `d[k]` on a Python dict. -/
def dictFind {κ ν : Type} [DecidableEq κ] (k : κ) : List (κ × ν) → Option ν
  | [] => none
  | p :: rest => if p.1 = k then some p.2 else dictFind k rest

/-! ## Stable sort by string length (`cluster.sort(key=len)`) -/

/-- Insert `x` after all entries whose length does not exceed that of
`x`; the insertion step of a stable length sort. -/
def insertByLen (x : String) : List String → List String
  | [] => [x]
  | y :: ys => if y.length ≤ x.length then y :: insertByLen x ys else x :: y :: ys

/-- Python's stable `list.sort(key=len)`. -/
def sortByLen (l : List String) : List String :=
  l.foldl (fun acc x => insertByLen x acc) []

/-- One step of locating the first string of minimal length. -/
def firstMinStep (acc : Option String) (x : String) : Option String :=
  match acc with
  | none => some x
  | some m => if m.length ≤ x.length then some m else some x

/-- The first string of minimal length in a list — the value Python's
stable sort places at index 0. -/
def firstMinByLen (l : List String) : Option String :=
  l.foldl firstMinStep none

/-! ## The greedy clustering scan (`cluster_indicators`, lines 32-65) -/

/-- State of the scan: the set of already-assigned indices
(`used_indices`) and the dictionary `clusters`. -/
structure ScanState where
  used : List ℕ
  clusters : List (String × List String)

/-- `np.where(similarity_matrix[i] >= similarity_threshold)[0]`: the
indices of row `i` whose similarity reaches the threshold, ascending. -/
def simRow (sim : ℕ → ℕ → ℚ) (t : ℚ) (n i : ℕ) : List ℕ :=
  (List.range n).filter (fun j => decide (t ≤ sim i j))

/-- The loop `for i in range(len(indicators))` of `cluster_indicators`.
An index already in `used_indices` is skipped; otherwise the similar,
not-yet-used indices form a cluster, which is sorted by length and stored
under its shortest member.  `clusters[cluster[0]]` on an empty cluster
would raise an `IndexError`, modelled by the `.error` branch. -/
def scanLoop (inds : List String) (sim : ℕ → ℕ → ℚ) (t : ℚ) :
    List ℕ → ScanState → Except String ScanState
  | [], st => .ok st
  | i :: rest, st =>
    if i ∈ st.used then scanLoop inds sim t rest st
    else
      let similar := simRow sim t inds.length i
      if similar.isEmpty then scanLoop inds sim t rest st
      else
        let newIdx := similar.filter (fun j => !(st.used.contains j))
        match sortByLen (newIdx.map (fun j => inds.getD j "")) with
        | [] => .error "IndexError: list index out of range"
        | rep :: sorted =>
          scanLoop inds sim t rest
            ⟨st.used ++ newIdx, dictInsert rep (rep :: sorted) st.clusters⟩

/-- The scan over all indices, from the empty state. -/
def scanClusters (inds : List String) (sim : ℕ → ℕ → ℚ) (t : ℚ) :
    Except String ScanState :=
  scanLoop inds sim t (List.range inds.length) ⟨[], []⟩

/-- Lines 59-63: flatten `clusters` into the mapping member ↦
representative. -/
def flattenClusters (cl : List (String × List String)) : List (String × String) :=
  cl.foldl (fun d rc => rc.2.foldl (fun d' m => dictInsert m rc.1 d') d) []

/-- The default `similarity_threshold=0.6` of `cluster_indicators`,
as the rational 3/5. -/
def defaultThreshold : ℚ := ⟨3, 5, by norm_num, by norm_num⟩

theorem defaultThreshold_eq_div : defaultThreshold = 3 / 5 := by
  unfold defaultThreshold
  rw [Rat.mk'_eq_divInt, Rat.divInt_eq_div]
  norm_num

/-- Shallow embedding of `cluster_indicators` (`process_indicators.py`,
lines 21-65).  The indicators are preprocessed and vectorized —
`fit_transform` raises `ValueError` when the corpus yields an empty
vocabulary (in particular on an empty input list) — and the greedy scan
then groups indices by the rows of the cosine-similarity matrix `sim`,
which is the injected output of the external numeric library. -/
def cluster_indicators (inds : List String) (sim : ℕ → ℕ → ℚ) (t : ℚ) :
    Except String (List (String × String)) :=
  let processed := inds.map (fun s => preprocess_text (some s))
  if (buildVocabulary processed).isEmpty then
    .error "ValueError: empty vocabulary; perhaps the documents only contain stop words"
  else
    (scanClusters inds sim t).map (fun st => flattenClusters st.clusters)

example : cluster_indicators ["apple"] (fun _ _ => 1) 1 = .ok [("apple", "apple")] := rfl
example : cluster_indicators [] (fun _ _ => 1) defaultThreshold =
    .error "ValueError: empty vocabulary; perhaps the documents only contain stop words" := rfl
example :
    cluster_indicators ["apple pie", "apple"] (fun i j => if i = j then 1 else defaultThreshold)
      defaultThreshold = .ok [("apple", "apple"), ("apple pie", "apple")] := rfl

/-! ### Lemmas on the stable length sort -/

theorem insertByLen_perm (x : String) :
    ∀ (l : List String), (insertByLen x l).Perm (x :: l) := by
  intro l
  induction l with
  | nil => simp [insertByLen]
  | cons y ys ih =>
    unfold insertByLen
    by_cases h : y.length ≤ x.length
    · rw [if_pos h]
      exact (ih.cons y).trans (List.Perm.swap x y ys)
    · rw [if_neg h]

theorem sortByLen_perm : ∀ (l : List String), (sortByLen l).Perm l := by
  intro l
  induction l using List.reverseRecOn with
  | nil => simp [sortByLen]
  | append_singleton l x ih =>
    have h1 : sortByLen (l ++ [x]) = insertByLen x (sortByLen l) := by
      unfold sortByLen
      rw [List.foldl_append]
      rfl
    rw [h1]
    refine (insertByLen_perm x _).trans ((ih.cons x).trans ?_)
    rw [← List.singleton_append]
    exact List.perm_append_comm

theorem head?_insertByLen (x : String) :
    ∀ (l : List String), (insertByLen x l).head? = firstMinStep l.head? x := by
  intro l
  cases l with
  | nil => rfl
  | cons y ys =>
    unfold insertByLen firstMinStep
    by_cases h : y.length ≤ x.length
    · rw [if_pos h]
      simp [h]
    · rw [if_neg h]
      simp [h]

theorem sortByLen_head? :
    ∀ (l : List String), (sortByLen l).head? = firstMinByLen l := by
  intro l
  induction l using List.reverseRecOn with
  | nil => rfl
  | append_singleton l x ih =>
    have h1 : sortByLen (l ++ [x]) = insertByLen x (sortByLen l) := by
      unfold sortByLen
      rw [List.foldl_append]
      rfl
    have h2 : firstMinByLen (l ++ [x]) = firstMinStep (firstMinByLen l) x := by
      unfold firstMinByLen
      rw [List.foldl_append]
      rfl
    rw [h1, h2, head?_insertByLen, ih]

theorem firstMinByLen_mem :
    ∀ {l : List String} {m : String}, firstMinByLen l = some m → m ∈ l := by
  intro l
  induction l using List.reverseRecOn with
  | nil => intro m h; cases h
  | append_singleton l x ih =>
    intro m h
    have h2 : firstMinByLen (l ++ [x]) = firstMinStep (firstMinByLen l) x := by
      unfold firstMinByLen
      rw [List.foldl_append]
      rfl
    rw [h2] at h
    cases hl : firstMinByLen l with
    | none =>
      rw [hl] at h
      simp only [firstMinStep] at h
      simp at h
      simp [h]
    | some m0 =>
      rw [hl] at h
      simp only [firstMinStep] at h
      by_cases hle : m0.length ≤ x.length
      · rw [if_pos hle] at h
        rcases h with rfl | h
        · exact List.mem_append_left _ (ih hl)
      · rw [if_neg hle] at h
        rcases h with rfl | h
        · exact List.mem_append_right _ (List.mem_singleton_self _)

theorem firstMinByLen_ne_none :
    ∀ {l : List String}, l ≠ [] → ∃ m, firstMinByLen l = some m := by
  intro l hne
  rcases List.exists_cons_of_ne_nil hne with ⟨a, l', rfl⟩
  clear hne
  induction l' using List.reverseRecOn with
  | nil => exact ⟨a, rfl⟩
  | append_singleton l'' z ihz =>
    have h3 : firstMinByLen ((a :: l'') ++ [z]) =
        firstMinStep (firstMinByLen (a :: l'')) z := by
      unfold firstMinByLen
      rw [List.foldl_append]
      rfl
    rcases ihz with ⟨w, hw⟩
    rw [show a :: (l'' ++ [z]) = (a :: l'') ++ [z] by rfl, h3, hw]
    simp only [firstMinStep]
    by_cases hwz : w.length ≤ z.length
    · rw [if_pos hwz]
      exact ⟨w, rfl⟩
    · rw [if_neg hwz]
      exact ⟨z, rfl⟩

theorem firstMinByLen_eq_none {l : List String} (h : firstMinByLen l = none) :
    l = [] := by
  by_contra hne
  rcases firstMinByLen_ne_none hne with ⟨m, hm⟩
  rw [hm] at h
  cases h

theorem firstMinByLen_le :
    ∀ {l : List String} {m : String}, firstMinByLen l = some m →
      ∀ y ∈ l, m.length ≤ y.length := by
  intro l
  induction l using List.reverseRecOn with
  | nil => intro m h; cases h
  | append_singleton l x ih =>
    intro m h y hy
    have h2 : firstMinByLen (l ++ [x]) = firstMinStep (firstMinByLen l) x := by
      unfold firstMinByLen
      rw [List.foldl_append]
      rfl
    rw [h2] at h
    cases hl : firstMinByLen l with
    | none =>
      have hnil : l = [] := firstMinByLen_eq_none hl
      subst hnil
      rw [hl] at h
      simp only [firstMinStep] at h
      cases h
      simp at hy
      subst hy
      exact Nat.le_refl _
    | some m0 =>
      rw [hl] at h
      simp only [firstMinStep] at h
      rcases List.mem_append.mp hy with hy' | hy'
      · by_cases hle : m0.length ≤ x.length
        · rw [if_pos hle] at h
          cases h
          exact ih hl y hy'
        · rw [if_neg hle] at h
          cases h
          exact Nat.le_of_lt (Nat.lt_of_lt_of_le (Nat.lt_of_not_le hle) (ih hl y hy'))
      · rw [List.mem_singleton] at hy'
        subst hy'
        by_cases hle : m0.length ≤ y.length
        · rw [if_pos hle] at h
          cases h
          exact hle
        · rw [if_neg hle] at h
          cases h
          exact Nat.le_refl _

/-- `firstMinByLen` returns the first element of minimal length: every
earlier element is strictly longer. -/
theorem firstMinByLen_first :
    ∀ {l : List String} {m : String}, firstMinByLen l = some m →
      ∃ pre suf, l = pre ++ m :: suf ∧ ∀ y ∈ pre, m.length < y.length := by
  intro l
  induction l using List.reverseRecOn with
  | nil => intro m h; cases h
  | append_singleton l x ih =>
    intro m h
    have h2 : firstMinByLen (l ++ [x]) = firstMinStep (firstMinByLen l) x := by
      unfold firstMinByLen
      rw [List.foldl_append]
      rfl
    rw [h2] at h
    cases hl : firstMinByLen l with
    | none =>
      have hnil : l = [] := firstMinByLen_eq_none hl
      subst hnil
      rw [hl] at h
      simp only [firstMinStep] at h
      cases h
      exact ⟨[], [], rfl, by intro y hy; cases hy⟩
    | some m0 =>
      rw [hl] at h
      simp only [firstMinStep] at h
      by_cases hle : m0.length ≤ x.length
      · rw [if_pos hle] at h
        cases h
        rcases ih hl with ⟨pre, suf, heq, hpre⟩
        exact ⟨pre, suf ++ [x], by rw [heq]; simp, hpre⟩
      · rw [if_neg hle] at h
        cases h
        refine ⟨l, [], rfl, ?_⟩
        intro y hy
        exact Nat.lt_of_lt_of_le (Nat.lt_of_not_le hle) (firstMinByLen_le hl y hy)

/-! ### Lemmas on Python-dict association lists -/

theorem dictInsert_self {κ ν : Type} [DecidableEq κ] (k : κ) (v : ν) :
    ∀ (l : List (κ × ν)), (k, v) ∈ dictInsert k v l := by
  intro l
  induction l with
  | nil => simp [dictInsert]
  | cons p rest ih =>
    unfold dictInsert
    by_cases h : p.1 = k
    · rw [if_pos h]
      exact List.mem_cons_self _ _
    · rw [if_neg h]
      exact List.mem_cons_of_mem _ ih

theorem mem_dictInsert {κ ν : Type} [DecidableEq κ] {k : κ} {v : ν} {q : κ × ν} :
    ∀ {l : List (κ × ν)}, q ∈ dictInsert k v l → q = (k, v) ∨ q ∈ l := by
  intro l
  induction l with
  | nil =>
    intro h
    simp [dictInsert] at h
    simp [h]
  | cons p rest ih =>
    intro h
    unfold dictInsert at h
    by_cases hp : p.1 = k
    · rw [if_pos hp] at h
      rcases List.mem_cons.mp h with h' | h'
      · exact Or.inl h'
      · exact Or.inr (List.mem_cons_of_mem _ h')
    · rw [if_neg hp] at h
      rcases List.mem_cons.mp h with h' | h'
      · exact Or.inr (h' ▸ List.mem_cons_self _ _)
      · rcases ih h' with h'' | h''
        · exact Or.inl h''
        · exact Or.inr (List.mem_cons_of_mem _ h'')

theorem dictInsert_fresh {κ ν : Type} [DecidableEq κ] {k : κ} (v : ν) :
    ∀ {l : List (κ × ν)}, k ∉ l.map Prod.fst → dictInsert k v l = l ++ [(k, v)] := by
  intro l
  induction l with
  | nil => intro _; rfl
  | cons p rest ih =>
    intro h
    rw [List.map_cons] at h
    have h1 : p.1 ≠ k := fun hc => h (hc ▸ List.mem_cons_self _ _)
    have h2 : k ∉ rest.map Prod.fst := fun hc => h (List.mem_cons_of_mem _ hc)
    unfold dictInsert
    rw [if_neg h1, ih h2]
    rfl

theorem dictFind_dictInsert_self {κ ν : Type} [DecidableEq κ] (k : κ) (v : ν) :
    ∀ (l : List (κ × ν)), dictFind k (dictInsert k v l) = some v := by
  intro l
  induction l with
  | nil => simp [dictInsert, dictFind]
  | cons p rest ih =>
    unfold dictInsert
    by_cases h : p.1 = k
    · rw [if_pos h]
      simp [dictFind]
    · rw [if_neg h]
      unfold dictFind
      rw [if_neg h]
      exact ih

theorem dictFind_dictInsert_ne {κ ν : Type} [DecidableEq κ] {k k' : κ} (v : ν)
    (hne : k' ≠ k) :
    ∀ (l : List (κ × ν)), dictFind k' (dictInsert k v l) = dictFind k' l := by
  intro l
  induction l with
  | nil =>
    simp only [dictInsert, dictFind]
    rw [if_neg (fun hc : k = k' => hne hc.symm)]
  | cons p rest ih =>
    simp only [dictInsert]
    by_cases h : p.1 = k
    · rw [if_pos h]
      simp only [dictFind]
      rw [if_neg (fun hc : k = k' => hne hc.symm),
        if_neg (fun hc : p.1 = k' => hne (hc.symm.trans h))]
    · rw [if_neg h]
      simp only [dictFind]
      by_cases hp : p.1 = k'
      · rw [if_pos hp, if_pos hp]
      · rw [if_neg hp, if_neg hp]
        exact ih

theorem dictFind_append_left {κ ν : Type} [DecidableEq κ] {k : κ} {v : ν} :
    ∀ {l1 : List (κ × ν)} (l2 : List (κ × ν)), dictFind k l1 = some v →
      dictFind k (l1 ++ l2) = some v := by
  intro l1
  induction l1 with
  | nil => intro l2 h; cases h
  | cons p rest ih =>
    intro l2 h
    rw [List.cons_append]
    simp only [dictFind] at h ⊢
    by_cases hp : p.1 = k
    · rw [if_pos hp] at h ⊢
      exact h
    · rw [if_neg hp] at h ⊢
      exact ih l2 h

theorem dictFind_append_right {κ ν : Type} [DecidableEq κ] {k : κ} :
    ∀ {l1 : List (κ × ν)} (l2 : List (κ × ν)), dictFind k l1 = none →
      dictFind k (l1 ++ l2) = dictFind k l2 := by
  intro l1
  induction l1 with
  | nil => intro l2 _; rfl
  | cons p rest ih =>
    intro l2 h
    simp only [dictFind] at h
    by_cases hp : p.1 = k
    · rw [if_pos hp] at h
      cases h
    · rw [if_neg hp] at h
      rw [List.cons_append]
      simp only [dictFind]
      rw [if_neg hp]
      exact ih l2 h

theorem dictFind_eq_none {κ ν : Type} [DecidableEq κ] {k : κ} :
    ∀ {l : List (κ × ν)}, k ∉ l.map Prod.fst → dictFind k l = none := by
  intro l
  induction l with
  | nil => intro _; rfl
  | cons p rest ih =>
    intro h
    rw [List.map_cons] at h
    simp only [dictFind]
    rw [if_neg (fun hc : p.1 = k => h (hc ▸ List.mem_cons_self _ _))]
    exact ih (fun hc => h (List.mem_cons_of_mem _ hc))

/-! ### Flattening the clusters dictionary -/

/-- All cluster members, in dictionary order. -/
def memberList (cl : List (String × List String)) : List String :=
  (cl.map (fun rc => rc.2)).flatten

/-- The member ↦ representative pairs of the flattened mapping, before
dictionary deduplication. -/
def clusterPairs (cl : List (String × List String)) : List (String × String) :=
  (cl.map (fun rc => rc.2.map (fun m => (m, rc.1)))).flatten

theorem mem_memberList {cl : List (String × List String)}
    {rc : String × List String} {x : String} (hrc : rc ∈ cl) (hx : x ∈ rc.2) :
    x ∈ memberList cl := by
  unfold memberList
  rw [List.mem_flatten]
  exact ⟨rc.2, List.mem_map.mpr ⟨rc, hrc, rfl⟩, hx⟩

theorem dictFind_pairList_mem {x r : String} :
    ∀ {ms : List String}, x ∈ ms →
      dictFind x (ms.map (fun m => (m, r))) = some r := by
  intro ms
  induction ms with
  | nil => intro h; cases h
  | cons m ms ih =>
    intro h
    rw [List.map_cons]
    simp only [dictFind]
    by_cases hm : m = x
    · rw [if_pos hm]
    · rw [if_neg hm]
      rcases List.mem_cons.mp h with h' | h'
      · exact absurd h'.symm hm
      · exact ih h'

theorem dictFind_pairList_not_mem {x r : String} {ms : List String} (h : x ∉ ms) :
    dictFind x (ms.map (fun m => (m, r))) = none := by
  refine dictFind_eq_none ?_
  rw [List.map_map]
  simpa using h

theorem dictFind_pairList_converse {x r v : String} {ms : List String}
    (h : dictFind x (ms.map (fun m => (m, r))) = some v) : x ∈ ms ∧ v = r := by
  by_cases hm : x ∈ ms
  · rw [dictFind_pairList_mem hm] at h
    cases h
    exact ⟨hm, rfl⟩
  · rw [dictFind_pairList_not_mem hm] at h
    cases h

theorem foldl_dictInsert_members (r : String) :
    ∀ (ms : List String) (d : List (String × String)),
      (∀ m ∈ ms, m ∉ d.map Prod.fst) → ms.Nodup →
      ms.foldl (fun d' m => dictInsert m r d') d = d ++ ms.map (fun m => (m, r)) := by
  intro ms
  induction ms with
  | nil => intro d _ _; simp
  | cons m ms ih =>
    intro d hfresh hnd
    rw [List.foldl_cons]
    rw [dictInsert_fresh r (hfresh m (List.mem_cons_self _ _))]
    rw [ih (d ++ [(m, r)]) ?_ (List.nodup_cons.mp hnd).2]
    · simp
    · intro m' hm'
      rw [List.map_append]
      intro hc
      rcases List.mem_append.mp hc with hc' | hc'
      · exact hfresh m' (List.mem_cons_of_mem _ hm') hc'
      · simp at hc'
        exact (List.nodup_cons.mp hnd).1 (hc' ▸ hm')

theorem flattenClusters_eq_aux :
    ∀ (cl : List (String × List String)) (d : List (String × String)),
      (memberList cl).Nodup →
      (∀ m ∈ memberList cl, m ∉ d.map Prod.fst) →
      cl.foldl (fun d rc => rc.2.foldl (fun d' m => dictInsert m rc.1 d') d) d =
        d ++ clusterPairs cl := by
  intro cl
  induction cl with
  | nil => intro d _ _; simp [clusterPairs]
  | cons rc cl' ih =>
    intro d hnd hfresh
    have hml : memberList (rc :: cl') = rc.2 ++ memberList cl' := by
      unfold memberList
      rw [List.map_cons, List.flatten_cons]
    rw [hml] at hnd hfresh
    have hnd1 : rc.2.Nodup := hnd.of_append_left
    have hnd2 : (memberList cl').Nodup := hnd.of_append_right
    have hdisj : ∀ m ∈ memberList cl', m ∉ rc.2 := by
      intro m hm hc
      exact (List.disjoint_of_nodup_append hnd) hc hm
    rw [List.foldl_cons]
    rw [foldl_dictInsert_members rc.1 rc.2 d
      (fun m hm => hfresh m (List.mem_append_left _ hm)) hnd1]
    rw [ih (d ++ rc.2.map (fun m => (m, rc.1))) hnd2 ?_]
    · unfold clusterPairs
      rw [List.map_cons, List.flatten_cons, List.append_assoc]
    · intro m hm
      rw [List.map_append]
      intro hc
      rcases List.mem_append.mp hc with hc' | hc'
      · exact hfresh m (List.mem_append_right _ hm) hc'
      · rw [List.map_map] at hc'
        simp at hc'
        exact hdisj m hm hc'

/-- When all members across clusters are distinct, the Python flattening
loop produces exactly the member ↦ representative pairs in order. -/
theorem flattenClusters_eq {cl : List (String × List String)}
    (hnd : (memberList cl).Nodup) : flattenClusters cl = clusterPairs cl := by
  unfold flattenClusters
  rw [flattenClusters_eq_aux cl [] hnd (by intro m _; simp)]
  rfl

theorem dictFind_clusterPairs {cl : List (String × List String)}
    {rc : String × List String} {x : String} (hnd : (memberList cl).Nodup)
    (hrc : rc ∈ cl) (hx : x ∈ rc.2) :
    dictFind x (clusterPairs cl) = some rc.1 := by
  induction cl with
  | nil => cases hrc
  | cons rc0 cl' ih =>
    have hml : memberList (rc0 :: cl') = rc0.2 ++ memberList cl' := by
      unfold memberList
      rw [List.map_cons, List.flatten_cons]
    rw [hml] at hnd
    have hcp : clusterPairs (rc0 :: cl') =
        rc0.2.map (fun m => (m, rc0.1)) ++ clusterPairs cl' := by
      unfold clusterPairs
      rw [List.map_cons, List.flatten_cons]
    rw [hcp]
    rcases List.mem_cons.mp hrc with hrc' | hrc'
    · subst hrc'
      exact dictFind_append_left _ (dictFind_pairList_mem hx)
    · have hx' : x ∈ memberList cl' := mem_memberList hrc' hx
      have hx0 : x ∉ rc0.2 := fun hc => (List.disjoint_of_nodup_append hnd) hc hx'
      rw [dictFind_append_right _ (dictFind_pairList_not_mem hx0)]
      exact ih hnd.of_append_right hrc'

theorem dictFind_clusterPairs_converse :
    ∀ {cl : List (String × List String)} {x r : String},
      dictFind x (clusterPairs cl) = some r →
      ∃ rc, rc ∈ cl ∧ x ∈ rc.2 ∧ rc.1 = r := by
  intro cl
  induction cl with
  | nil => intro x r h; cases h
  | cons rc0 cl' ih =>
    intro x r h
    have hcp : clusterPairs (rc0 :: cl') =
        rc0.2.map (fun m => (m, rc0.1)) ++ clusterPairs cl' := by
      unfold clusterPairs
      rw [List.map_cons, List.flatten_cons]
    rw [hcp] at h
    cases hleft : dictFind x (rc0.2.map (fun m => (m, rc0.1))) with
    | some v =>
      rw [dictFind_append_left _ hleft] at h
      cases h
      rcases dictFind_pairList_converse hleft with ⟨hxm, rfl⟩
      exact ⟨rc0, List.mem_cons_self _ _, hxm, rfl⟩
    | none =>
      rw [dictFind_append_right _ hleft] at h
      rcases ih h with ⟨rc, hrc, hxm, hr⟩
      exact ⟨rc, List.mem_cons_of_mem _ hrc, hxm, hr⟩

/-! ### The scan invariant -/

theorem getD_inj {inds : List String} (hnd : inds.Nodup) {i j : ℕ}
    (hi : i < inds.length) (hj : j < inds.length)
    (h : inds.getD i "" = inds.getD j "") : i = j := by
  rw [List.getD_eq_getElem _ _ hi, List.getD_eq_getElem _ _ hj] at h
  exact (hnd.getElem_inj_iff).mp h

theorem getD_mem {inds : List String} {j : ℕ} (hj : j < inds.length) :
    inds.getD j "" ∈ inds := by
  rw [List.getD_eq_getElem _ _ hj]
  exact List.getElem_mem hj

theorem mem_simRow {sim : ℕ → ℕ → ℚ} {t : ℚ} {n i j : ℕ} :
    j ∈ simRow sim t n i ↔ j < n ∧ t ≤ sim i j := by
  unfold simRow
  rw [List.mem_filter, List.mem_range]
  simp

theorem nodup_simRow (sim : ℕ → ℕ → ℚ) (t : ℚ) (n i : ℕ) :
    (simRow sim t n i).Nodup :=
  (List.nodup_range n).filter _

/-- The invariant maintained by the scan: used indices are in range and
distinct, the stored cluster members are exactly the used indicators, and
every stored cluster arose from a nonempty set of indices similar to its
anchor, sorted by length with the first minimum as representative. -/
structure ScanInv (inds : List String) (sim : ℕ → ℕ → ℚ) (t : ℚ) (st : ScanState) :
    Prop where
  used_lt : ∀ j ∈ st.used, j < inds.length
  used_nodup : st.used.Nodup
  mem_perm : (memberList st.clusters).Perm (st.used.map (fun j => inds.getD j ""))
  cluster_spec : ∀ rc ∈ st.clusters, ∃ i0 idxs, idxs ≠ [] ∧ idxs.Nodup ∧
      (∀ j ∈ idxs, j < inds.length ∧ t ≤ sim i0 j) ∧
      rc.2 = sortByLen (idxs.map (fun j => inds.getD j "")) ∧
      firstMinByLen (idxs.map (fun j => inds.getD j "")) = some rc.1

theorem ScanInv.rep_mem {inds sim t st} (hinv : ScanInv inds sim t st)
    {rc : String × List String} (hrc : rc ∈ st.clusters) : rc.1 ∈ rc.2 := by
  rcases hinv.cluster_spec rc hrc with ⟨i0, idxs, _, _, _, h4, h5⟩
  rw [h4]
  exact ((sortByLen_perm _).mem_iff).mpr (firstMinByLen_mem h5)

theorem ScanInv.members_nodup {inds sim t st} (hnd : inds.Nodup)
    (hinv : ScanInv inds sim t st) : (memberList st.clusters).Nodup := by
  rw [hinv.mem_perm.nodup_iff]
  refine List.Nodup.map_on ?_ hinv.used_nodup
  intro x hx y hy hxy
  exact getD_inj hnd (hinv.used_lt x hx) (hinv.used_lt y hy) hxy

theorem scanInv_init (inds : List String) (sim : ℕ → ℕ → ℚ) (t : ℚ) :
    ScanInv inds sim t ⟨[], []⟩ := by
  refine ⟨?_, List.nodup_nil, ?_, ?_⟩
  · intro j hj; cases hj
  · exact List.Perm.refl _
  · intro rc hrc; cases hrc

theorem memberList_append (cl1 cl2 : List (String × List String)) :
    memberList (cl1 ++ cl2) = memberList cl1 ++ memberList cl2 := by
  unfold memberList
  rw [List.map_append, List.flatten_append]

/-- The unfolding equation of one loop iteration. -/
theorem scanLoop_cons (inds : List String) (sim : ℕ → ℕ → ℚ) (t : ℚ) (i : ℕ)
    (rest : List ℕ) (st : ScanState) :
    scanLoop inds sim t (i :: rest) st =
      if i ∈ st.used then scanLoop inds sim t rest st
      else if (simRow sim t inds.length i).isEmpty then scanLoop inds sim t rest st
      else
        match sortByLen (((simRow sim t inds.length i).filter
            (fun j => !(st.used.contains j))).map (fun j => inds.getD j "")) with
        | [] => Except.error "IndexError: list index out of range"
        | rep :: sorted =>
          scanLoop inds sim t rest
            ⟨st.used ++ (simRow sim t inds.length i).filter (fun j => !(st.used.contains j)),
             dictInsert rep (rep :: sorted) st.clusters⟩ := rfl

/-- One cluster-forming step of the scan preserves the invariant and only
appends to the cluster dictionary. -/
theorem scanStep_inv {inds : List String} {sim : ℕ → ℕ → ℚ} {t : ℚ} {st : ScanState}
    (hnd : inds.Nodup) (hinv : ScanInv inds sim t st) {i : ℕ}
    {rep : String} {sorted : List String}
    (hsort : sortByLen (((simRow sim t inds.length i).filter
        (fun j => !(st.used.contains j))).map (fun j => inds.getD j "")) = rep :: sorted) :
    ScanInv inds sim t
      ⟨st.used ++ (simRow sim t inds.length i).filter (fun j => !(st.used.contains j)),
       dictInsert rep (rep :: sorted) st.clusters⟩ ∧
    dictInsert rep (rep :: sorted) st.clusters =
      st.clusters ++ [(rep, rep :: sorted)] := by
  set newIdx := (simRow sim t inds.length i).filter (fun j => !(st.used.contains j)) with hnew
  have hmemN : ∀ j, j ∈ newIdx ↔ (j < inds.length ∧ t ≤ sim i j) ∧ j ∉ st.used := by
    intro j
    rw [hnew, List.mem_filter, mem_simRow]
    constructor
    · rintro ⟨h1, h2⟩
      refine ⟨h1, ?_⟩
      intro hc
      rw [Bool.not_eq_eq_eq_not, Bool.not_true] at h2
      rw [← List.elem_iff] at hc
      rw [show st.used.contains j = List.elem j st.used from rfl, hc] at h2
      cases h2
    · rintro ⟨h1, h2⟩
      refine ⟨h1, ?_⟩
      rw [Bool.not_eq_eq_eq_not, Bool.not_true]
      rw [show st.used.contains j = List.elem j st.used from rfl]
      rw [← Bool.not_eq_true]
      intro hc
      exact h2 (List.elem_iff.mp hc)
  have hnodupN : newIdx.Nodup := (nodup_simRow sim t inds.length i).filter _
  have hpermC : (rep :: sorted).Perm (newIdx.map (fun j => inds.getD j "")) := by
    rw [← hsort]
    exact sortByLen_perm _
  have hrepC : rep ∈ newIdx.map (fun j => inds.getD j "") :=
    hpermC.mem_iff.mp (List.mem_cons_self _ _)
  have hfresh : rep ∉ st.clusters.map Prod.fst := by
    intro hc
    rcases List.mem_map.mp hc with ⟨rc, hrc, hrc1⟩
    have h1 : rep ∈ memberList st.clusters := mem_memberList hrc (hrc1 ▸ hinv.rep_mem hrc)
    have h2 : rep ∈ st.used.map (fun j => inds.getD j "") := hinv.mem_perm.mem_iff.mp h1
    rcases List.mem_map.mp h2 with ⟨j', hj', hj'e⟩
    rcases List.mem_map.mp hrepC with ⟨j0, hj0, hj0e⟩
    have hj0' : j0 = j' := getD_inj hnd ((hmemN j0).mp hj0).1.1 (hinv.used_lt j' hj')
      (hj0e.trans hj'e.symm)
    exact ((hmemN j0).mp hj0).2 (hj0' ▸ hj')
  have hins : dictInsert rep (rep :: sorted) st.clusters =
      st.clusters ++ [(rep, rep :: sorted)] := dictInsert_fresh _ hfresh
  refine ⟨⟨?_, ?_, ?_, ?_⟩, hins⟩
  · intro j hj
    rcases List.mem_append.mp hj with h' | h'
    · exact hinv.used_lt j h'
    · exact ((hmemN j).mp h').1.1
  · refine List.Nodup.append hinv.used_nodup hnodupN ?_
    intro j hj hjN
    exact ((hmemN j).mp hjN).2 hj
  · rw [hins, memberList_append]
    have hm1 : memberList [(rep, rep :: sorted)] = rep :: sorted := by
      unfold memberList
      simp
    rw [hm1, List.map_append]
    exact hinv.mem_perm.append hpermC
  · intro rc hrc
    rw [hins] at hrc
    rcases List.mem_append.mp hrc with h' | h'
    · exact hinv.cluster_spec rc h'
    · rw [List.mem_singleton] at h'
      subst h'
      refine ⟨i, newIdx, ?_, hnodupN, ?_, ?_, ?_⟩
      · intro hc
        rw [hc] at hrepC
        cases hrepC
      · intro j hj
        exact ((hmemN j).mp hj).1
      · exact hsort.symm
      · rw [← sortByLen_head?, hsort]
        rfl

/-- Master lemma: on in-range indices, with the cosine property that a
row reaching the threshold anywhere reaches it on the diagonal, the scan
never fails, preserves the invariant, and only grows its state. -/
theorem scanLoop_master {inds : List String} {sim : ℕ → ℕ → ℚ} {t : ℚ}
    (hnd : inds.Nodup) (hdiag : ∀ i j, t ≤ sim i j → t ≤ sim i i) :
    ∀ (l : List ℕ) (st : ScanState), (∀ i ∈ l, i < inds.length) →
      ScanInv inds sim t st →
      ∃ st', scanLoop inds sim t l st = .ok st' ∧ ScanInv inds sim t st' ∧
        (∀ rc ∈ st.clusters, rc ∈ st'.clusters) ∧ (∀ j ∈ st.used, j ∈ st'.used) := by
  intro l
  induction l with
  | nil =>
    intro st _ hinv
    exact ⟨st, rfl, hinv, fun rc h => h, fun j h => h⟩
  | cons i rest ih =>
    intro st hlt hinv
    have hi : i < inds.length := hlt i (List.mem_cons_self _ _)
    have hlt' : ∀ k ∈ rest, k < inds.length := fun k hk => hlt k (List.mem_cons_of_mem _ hk)
    rw [scanLoop_cons]
    by_cases hiu : i ∈ st.used
    · rw [if_pos hiu]
      exact ih st hlt' hinv
    · rw [if_neg hiu]
      by_cases hemp : (simRow sim t inds.length i).isEmpty = true
      · rw [if_pos hemp]
        exact ih st hlt' hinv
      · rw [if_neg hemp]
        have hne : simRow sim t inds.length i ≠ [] := by
          intro hc
          rw [hc] at hemp
          exact hemp rfl
        have hself : t ≤ sim i i := by
          rcases List.exists_mem_of_ne_nil _ hne with ⟨j, hj⟩
          exact hdiag i j (mem_simRow.mp hj).2
        have hiR : i ∈ simRow sim t inds.length i := mem_simRow.mpr ⟨hi, hself⟩
        have hiN : i ∈ (simRow sim t inds.length i).filter
            (fun j => !(st.used.contains j)) := by
          rw [List.mem_filter]
          refine ⟨hiR, ?_⟩
          rw [Bool.not_eq_eq_eq_not, Bool.not_true, ← Bool.not_eq_true]
          intro hc
          exact hiu (List.elem_iff.mp hc)
        cases hsort : sortByLen (((simRow sim t inds.length i).filter
            (fun j => !(st.used.contains j))).map (fun j => inds.getD j "")) with
        | nil =>
          exfalso
          have hpc := sortByLen_perm (((simRow sim t inds.length i).filter
            (fun j => !(st.used.contains j))).map (fun j => inds.getD j ""))
          rw [hsort] at hpc
          have := hpc.symm.mem_iff.mp (List.mem_map.mpr ⟨i, hiN, rfl⟩)
          cases this
        | cons rep sorted =>
          rcases scanStep_inv hnd hinv hsort with ⟨hinv1, hins⟩
          rcases ih _ hlt' hinv1 with ⟨st', hok, hinv', hsub, husub⟩
          refine ⟨st', hok, hinv', ?_, ?_⟩
          · intro rc hrc
            refine hsub rc ?_
            show rc ∈ dictInsert rep (rep :: sorted) st.clusters
            rw [hins]
            exact List.mem_append_left _ hrc
          · intro j hj
            refine husub j ?_
            exact List.mem_append_left _ hj

/-! ### Claim C2: failure behaviour -/

theorem scanLoop_no_error {inds : List String} {sim : ℕ → ℕ → ℚ} {t : ℚ}
    (hdiag : ∀ i j, t ≤ sim i j → t ≤ sim i i) :
    ∀ (l : List ℕ) (st : ScanState), (∀ i ∈ l, i < inds.length) →
      ∃ st', scanLoop inds sim t l st = .ok st' := by
  intro l
  induction l with
  | nil => intro st _; exact ⟨st, rfl⟩
  | cons i rest ih =>
    intro st hlt
    have hi : i < inds.length := hlt i (List.mem_cons_self _ _)
    have hlt' : ∀ k ∈ rest, k < inds.length := fun k hk => hlt k (List.mem_cons_of_mem _ hk)
    rw [scanLoop_cons]
    by_cases hiu : i ∈ st.used
    · rw [if_pos hiu]
      exact ih st hlt'
    · rw [if_neg hiu]
      by_cases hemp : (simRow sim t inds.length i).isEmpty = true
      · rw [if_pos hemp]
        exact ih st hlt'
      · rw [if_neg hemp]
        have hne : simRow sim t inds.length i ≠ [] := by
          intro hc
          rw [hc] at hemp
          exact hemp rfl
        have hself : t ≤ sim i i := by
          rcases List.exists_mem_of_ne_nil _ hne with ⟨j, hj⟩
          exact hdiag i j (mem_simRow.mp hj).2
        have hiN : i ∈ (simRow sim t inds.length i).filter
            (fun j => !(st.used.contains j)) := by
          rw [List.mem_filter]
          refine ⟨mem_simRow.mpr ⟨hi, hself⟩, ?_⟩
          rw [Bool.not_eq_eq_eq_not, Bool.not_true, ← Bool.not_eq_true]
          intro hc
          exact hiu (List.elem_iff.mp hc)
        cases hsort : sortByLen (((simRow sim t inds.length i).filter
            (fun j => !(st.used.contains j))).map (fun j => inds.getD j "")) with
        | nil =>
          exfalso
          have hpc := sortByLen_perm (((simRow sim t inds.length i).filter
            (fun j => !(st.used.contains j))).map (fun j => inds.getD j ""))
          rw [hsort] at hpc
          have := hpc.symm.mem_iff.mp (List.mem_map.mpr ⟨i, hiN, rfl⟩)
          cases this
        | cons rep sorted =>
          exact ih _ hlt'

/-- C2 (amended): `cluster_indicators` raises the vectorizer's
`ValueError` exactly when the corpus yields an empty vocabulary — in
particular on the empty input list, which therefore does not return an
empty mapping — and succeeds on every input with a non-empty vocabulary,
given the cosine property that a row reaching the threshold anywhere
reaches it on its own diagonal. -/
theorem cluster_indicators_failure_spec (inds : List String) (sim : ℕ → ℕ → ℚ) (t : ℚ) :
    ((buildVocabulary (inds.map (fun s => preprocess_text (some s)))).isEmpty = true →
      cluster_indicators inds sim t =
        .error "ValueError: empty vocabulary; perhaps the documents only contain stop words") ∧
    ((buildVocabulary (inds.map (fun s => preprocess_text (some s)))).isEmpty = false →
      (∀ i j, t ≤ sim i j → t ≤ sim i i) →
      ∃ m, cluster_indicators inds sim t = .ok m) := by
  constructor
  · intro hv
    unfold cluster_indicators
    rw [if_pos hv]
  · intro hv hdiag
    rcases scanLoop_no_error hdiag (List.range inds.length) ⟨[], []⟩
      (fun i hi => List.mem_range.mp hi) with ⟨st', hok⟩
    refine ⟨flattenClusters st'.clusters, ?_⟩
    unfold cluster_indicators
    rw [if_neg (by rw [hv]; intro hc; cases hc)]
    show (scanClusters inds sim t).map (fun st => flattenClusters st.clusters) = _
    unfold scanClusters
    rw [hok]
    rfl

/-- C2 counterexample: on the empty input list `cluster_indicators`
raises the vectorizer's empty-vocabulary `ValueError` instead of
returning an empty mapping. -/
theorem cluster_indicators_empty_input :
    cluster_indicators [] (fun _ _ => 1) defaultThreshold =
      .error "ValueError: empty vocabulary; perhaps the documents only contain stop words" := rfl

theorem cluster_indicators_failure_spec_witness :
    ∃ m, cluster_indicators ["apple"] (fun _ _ => 1) defaultThreshold = .ok m :=
  (cluster_indicators_failure_spec ["apple"] (fun _ _ => 1) defaultThreshold).2 rfl
    (fun _ _ h => h)

/-! ### Claim C8: representatives come from the corpus -/

/-- Every stored cluster has its representative and members drawn from
the input indicators. -/
def WeakInv (inds : List String) (st : ScanState) : Prop :=
  ∀ rc ∈ st.clusters, rc.1 ∈ inds ∧ ∀ x ∈ rc.2, x ∈ inds

theorem scanLoop_weakInv {inds : List String} {sim : ℕ → ℕ → ℚ} {t : ℚ} :
    ∀ (l : List ℕ) (st st' : ScanState), scanLoop inds sim t l st = .ok st' →
      WeakInv inds st → WeakInv inds st' := by
  intro l
  induction l with
  | nil =>
    intro st st' hok hw
    cases hok
    exact hw
  | cons i rest ih =>
    intro st st' hok hw
    rw [scanLoop_cons] at hok
    by_cases hiu : i ∈ st.used
    · rw [if_pos hiu] at hok
      exact ih st st' hok hw
    · rw [if_neg hiu] at hok
      by_cases hemp : (simRow sim t inds.length i).isEmpty = true
      · rw [if_pos hemp] at hok
        exact ih st st' hok hw
      · rw [if_neg hemp] at hok
        cases hsort : sortByLen (((simRow sim t inds.length i).filter
            (fun j => !(st.used.contains j))).map (fun j => inds.getD j "")) with
        | nil =>
          rw [hsort] at hok
          cases hok
        | cons rep sorted =>
          rw [hsort] at hok
          refine ih _ st' hok ?_
          intro rc hrc
          rcases mem_dictInsert hrc with h' | h'
          · subst h'
            have hmem : ∀ x ∈ rep :: sorted, x ∈ inds := by
              intro x hx
              have hpc := sortByLen_perm (((simRow sim t inds.length i).filter
                (fun j => !(st.used.contains j))).map (fun j => inds.getD j ""))
              rw [hsort] at hpc
              have hx' := hpc.mem_iff.mp hx
              rcases List.mem_map.mp hx' with ⟨j, hj, rfl⟩
              have hj' : j ∈ simRow sim t inds.length i := (List.mem_filter.mp hj).1
              exact getD_mem (mem_simRow.mp hj').1
            exact ⟨hmem rep (List.mem_cons_self _ _), hmem⟩
          · exact hw rc h'

theorem mem_foldl_dictInsert {r : String} {p : String × String} :
    ∀ {ms : List String} {d : List (String × String)},
      p ∈ ms.foldl (fun d' m => dictInsert m r d') d →
      p ∈ d ∨ (p.1 ∈ ms ∧ p.2 = r) := by
  intro ms
  induction ms with
  | nil => intro d h; exact Or.inl h
  | cons m ms ih =>
    intro d h
    rw [List.foldl_cons] at h
    rcases ih h with h' | h'
    · rcases mem_dictInsert h' with h'' | h''
      · rw [h'']
        exact Or.inr ⟨List.mem_cons_self _ _, rfl⟩
      · exact Or.inl h''
    · exact Or.inr ⟨List.mem_cons_of_mem _ h'.1, h'.2⟩

theorem mem_flattenClusters {p : String × String} :
    ∀ {cl : List (String × List String)},
      p ∈ flattenClusters cl → ∃ rc ∈ cl, p.1 ∈ rc.2 ∧ p.2 = rc.1 := by
  have haux : ∀ (cl : List (String × List String)) (d : List (String × String)),
      p ∈ cl.foldl (fun d rc => rc.2.foldl (fun d' m => dictInsert m rc.1 d') d) d →
      p ∈ d ∨ ∃ rc ∈ cl, p.1 ∈ rc.2 ∧ p.2 = rc.1 := by
    intro cl
    induction cl with
    | nil => intro d h; exact Or.inl h
    | cons rc0 cl' ih =>
      intro d h
      rw [List.foldl_cons] at h
      rcases ih _ h with h' | h'
      · rcases mem_foldl_dictInsert h' with h'' | h''
        · exact Or.inl h''
        · exact Or.inr ⟨rc0, List.mem_cons_self _ _, h''⟩
      · rcases h' with ⟨rc, hrc, hrest⟩
        exact Or.inr ⟨rc, List.mem_cons_of_mem _ hrc, hrest⟩
  intro cl h
  rcases haux cl [] h with h' | h'
  · cases h'
  · exact h'

/-- C8: for every input list of indicators, every representative in a
successfully returned mapping is itself one of the input indicators. -/
theorem cluster_indicators_values_mem (inds : List String) (sim : ℕ → ℕ → ℚ) (t : ℚ)
    (m : List (String × String)) (hok : cluster_indicators inds sim t = .ok m) :
    ∀ p ∈ m, p.2 ∈ inds := by
  unfold cluster_indicators at hok
  by_cases hv : (buildVocabulary (inds.map (fun s => preprocess_text (some s)))).isEmpty = true
  · rw [if_pos hv] at hok
    cases hok
  · rw [if_neg hv] at hok
    cases hsc : scanClusters inds sim t with
    | error e =>
      rw [hsc] at hok
      cases hok
    | ok st' =>
      rw [hsc] at hok
      cases hok
      have hw : WeakInv inds st' :=
        scanLoop_weakInv _ _ _ hsc (by intro rc hrc; cases hrc)
      intro p hp
      rcases mem_flattenClusters hp with ⟨rc, hrc, _, hp2⟩
      rw [hp2]
      exact (hw rc hrc).1

theorem cluster_indicators_values_mem_witness : "apple" ∈ ["apple"] :=
  cluster_indicators_values_mem ["apple"] (fun _ _ => 1) 1 [("apple", "apple")] rfl
    ("apple", "apple") (List.mem_cons_self _ _)

/-! ### Claim C7: threshold zero collapses everything -/

theorem map_getD_range (inds : List String) :
    (List.range inds.length).map (fun j => inds.getD j "") = inds := by
  refine List.ext_getElem (by simp) ?_
  intro i h1 h2
  simp only [List.getElem_map, List.getElem_range]
  rw [List.getD_eq_getElem _ _ h2]

theorem scanLoop_skip_all {inds : List String} {sim : ℕ → ℕ → ℚ} {t : ℚ} :
    ∀ (l : List ℕ) (st : ScanState), (∀ k ∈ l, k ∈ st.used) →
      scanLoop inds sim t l st = .ok st := by
  intro l
  induction l with
  | nil => intro st _; rfl
  | cons i rest ih =>
    intro st hall
    rw [scanLoop_cons, if_pos (hall i (List.mem_cons_self _ _))]
    exact ih st (fun k hk => hall k (List.mem_cons_of_mem _ hk))

/-- C7 (amended): at threshold 0 — all cosine similarities being
nonnegative — every non-empty list of distinct indicators whose corpus
has a non-empty vocabulary is collapsed into a single cluster: the
returned mapping sends every indicator to one common representative. -/
theorem cluster_indicators_zero_threshold (inds : List String) (sim : ℕ → ℕ → ℚ)
    (hne : inds ≠ []) (hnd : inds.Nodup)
    (hvoc : (buildVocabulary (inds.map (fun s => preprocess_text (some s)))).isEmpty = false)
    (hpos : ∀ i j, (0 : ℚ) ≤ sim i j) :
    ∃ rep m, cluster_indicators inds sim 0 = .ok m ∧ rep ∈ inds ∧
      ∀ x ∈ inds, dictFind x m = some rep := by
  have hR : simRow sim 0 inds.length 0 = List.range inds.length := by
    unfold simRow
    exact List.filter_eq_self.mpr (fun a _ => decide_eq_true (hpos 0 a))
  have hF : (List.range inds.length).filter
      (fun j => !(([] : List ℕ).contains j)) = List.range inds.length :=
    List.filter_eq_self.mpr (fun a _ => rfl)
  rcases List.exists_cons_of_ne_nil hne with ⟨a0, inds', hinds⟩
  have hlen : inds.length = inds'.length + 1 := by rw [hinds]; rfl
  have hsortne : sortByLen inds ≠ [] := by
    intro hc
    have := (sortByLen_perm inds).length_eq
    rw [hc, hinds] at this
    cases this
  cases hsort : sortByLen inds with
  | nil => exact absurd hsort hsortne
  | cons rep sorted =>
  have hrange : List.range inds.length = 0 :: (List.range inds'.length).map Nat.succ := by
    rw [hlen, List.range_succ_eq_map]
  have hstep : scanLoop inds sim 0 (List.range inds.length) ⟨[], []⟩ =
      .ok ⟨[] ++ List.range inds.length, [(rep, rep :: sorted)]⟩ := by
    rw [hrange, scanLoop_cons]
    rw [if_neg (List.not_mem_nil 0)]
    have hused : (⟨[], []⟩ : ScanState).used = [] := rfl
    rw [show (⟨[], []⟩ : ScanState).used.contains = ([] : List ℕ).contains from rfl]
    rw [hR, hF]
    rw [if_neg (by rw [hrange]; intro hc; cases hc)]
    rw [map_getD_range, hsort]
    show scanLoop inds sim 0 ((List.range inds'.length).map Nat.succ)
      ⟨[] ++ List.range inds.length, dictInsert rep (rep :: sorted) []⟩ = _
    rw [show dictInsert rep (rep :: sorted) ([] : List (String × List String)) =
      [(rep, rep :: sorted)] from rfl]
    rw [← hrange]
    refine scanLoop_skip_all _ _ ?_
    intro k hk
    rcases List.mem_map.mp hk with ⟨a, ha, rfl⟩
    show Nat.succ a ∈ [] ++ List.range inds.length
    rw [List.nil_append, List.mem_range, hlen]
    exact Nat.succ_lt_succ (List.mem_range.mp ha)
  have hscan : scanClusters inds sim 0 = .ok ⟨List.range inds.length, [(rep, rep :: sorted)]⟩ := by
    unfold scanClusters
    rw [hstep]
    rfl
  have hperm : (rep :: sorted).Perm inds := by
    rw [← hsort]
    exact sortByLen_perm inds
  have hml : memberList [(rep, rep :: sorted)] = rep :: sorted := by
    unfold memberList
    simp
  have hmlnd : (memberList [(rep, rep :: sorted)]).Nodup := by
    rw [hml, hperm.nodup_iff]
    exact hnd
  refine ⟨rep, flattenClusters [(rep, rep :: sorted)], ?_, ?_, ?_⟩
  · unfold cluster_indicators
    rw [if_neg (by rw [hvoc]; intro hc; cases hc), hscan]
    rfl
  · exact hperm.mem_iff.mp (List.mem_cons_self _ _)
  · intro x hx
    rw [flattenClusters_eq hmlnd]
    exact @dictFind_clusterPairs [(rep, rep :: sorted)] (rep, rep :: sorted) x hmlnd
      (List.mem_cons_self _ _) (hperm.mem_iff.mpr hx)

theorem cluster_indicators_zero_threshold_witness :
    ∃ rep m, cluster_indicators ["apple", "pear"] (fun _ _ => 0) 0 = .ok m ∧
      rep ∈ ["apple", "pear"] ∧
      ∀ x ∈ ["apple", "pear"], dictFind x m = some rep :=
  cluster_indicators_zero_threshold ["apple", "pear"] (fun _ _ => 0)
    (by intro hc; cases hc) (by decide) rfl (fun _ _ => le_refl 0)

/-! ### Claim C1: indicators with a singleton similar set -/

theorem filter_range_singleton {p : ℕ → Bool} {i : ℕ} (hp : p i = true)
    (hup : ∀ j, p j = true → j = i) :
    ∀ (n : ℕ), i < n → (List.range n).filter p = [i] := by
  intro n
  induction n with
  | zero => intro h; cases h
  | succ n ih =>
    intro hi
    rw [List.range_succ, List.filter_append]
    by_cases hn : i = n
    · subst hn
      have h1 : (List.range i).filter p = [] := by
        rw [List.filter_eq_nil_iff]
        intro a ha
        intro hc
        rw [hup a hc] at ha
        exact absurd (List.mem_range.mp ha) (Nat.lt_irrefl i)
      rw [h1, List.filter_cons, if_pos hp]
      rfl
    · have hi' : i < n := by omega
      rw [ih hi', List.filter_cons, if_neg ?_]
      · rfl
      · intro hc
        exact hn (hup n hc).symm

theorem simRow_isolated {sim : ℕ → ℕ → ℚ} {t : ℚ} {n i : ℕ} (hi : i < n)
    (hself : t ≤ sim i i) (hiso : ∀ k, k ≠ i → ¬ t ≤ sim i k) :
    simRow sim t n i = [i] := by
  unfold simRow
  refine filter_range_singleton (decide_eq_true hself) ?_ n hi
  intro j hj
  by_contra hne
  exact hiso j hne (of_decide_eq_true hj)

theorem sortByLen_singleton (x : String) : sortByLen [x] = [x] := rfl

theorem scanLoop_isolated {inds : List String} {sim : ℕ → ℕ → ℚ} {t : ℚ}
    (hnd : inds.Nodup) (hdiag : ∀ i j, t ≤ sim i j → t ≤ sim i i) {i : ℕ}
    (hi : i < inds.length) (hself : t ≤ sim i i)
    (hiso : ∀ k, k ≠ i → ¬ t ≤ sim i k ∧ ¬ t ≤ sim k i) :
    ∀ (l : List ℕ) (st : ScanState), (∀ k ∈ l, k < inds.length) →
      ScanInv inds sim t st → i ∈ l → i ∉ st.used →
      ∃ st', scanLoop inds sim t l st = .ok st' ∧ ScanInv inds sim t st' ∧
        (inds.getD i "", [inds.getD i ""]) ∈ st'.clusters := by
  intro l
  induction l with
  | nil =>
    intro st _ _ hil _
    cases hil
  | cons k rest ih =>
    intro st hlt hinv hil hiu
    have hlt' : ∀ a ∈ rest, a < inds.length := fun a ha => hlt a (List.mem_cons_of_mem _ ha)
    rw [scanLoop_cons]
    by_cases hku : k ∈ st.used
    · rw [if_pos hku]
      have hik : i ≠ k := fun hc => hiu (hc ▸ hku)
      have hirest : i ∈ rest := by
        rcases List.mem_cons.mp hil with h' | h'
        · exact absurd h' hik
        · exact h'
      exact ih st hlt' hinv hirest hiu
    · rw [if_neg hku]
      by_cases hk : k = i
      · subst hk
        have hRow : simRow sim t inds.length k = [k] :=
          simRow_isolated hi hself (fun a ha => (hiso a ha).1)
        rw [hRow]
        rw [if_neg (by intro hc; cases hc)]
        have hfil : ([k].filter (fun j => !(st.used.contains j))) = [k] := by
          rw [List.filter_cons, if_pos ?_]
          · rfl
          · rw [Bool.not_eq_eq_eq_not, Bool.not_true, ← Bool.not_eq_true]
            intro hc
            exact hiu (List.elem_iff.mp hc)
        rw [hfil]
        rw [show ([k].map (fun j => inds.getD j "")) = [inds.getD k ""] from rfl]
        rw [sortByLen_singleton]
        rcases @scanStep_inv inds sim t st hnd hinv k (inds.getD k "") [] 
          (by rw [hRow, hfil]; rfl) with ⟨hinv1, hins⟩
        rcases scanLoop_master hnd hdiag rest _ hlt' hinv1 with ⟨st', hok, hinv', hsub, _⟩
        refine ⟨st', ?_, hinv', ?_⟩
        · rw [← hok]
          show scanLoop inds sim t rest
            ⟨st.used ++ [k], dictInsert (inds.getD k "") [inds.getD k ""] st.clusters⟩ = _
          have : (simRow sim t inds.length k).filter (fun j => !(st.used.contains j)) = [k] := by
            rw [hRow, hfil]
          rw [this]
        · refine hsub _ ?_
          show _ ∈ dictInsert (inds.getD k "") [inds.getD k ""] st.clusters
          rw [show [inds.getD k ""] = inds.getD k "" :: [] from rfl]
          exact dictInsert_self _ _ _
      · have hik : i ≠ k := fun hc => hk hc.symm
        have hirest : i ∈ rest := by
          rcases List.mem_cons.mp hil with h' | h'
          · exact absurd h' hik
          · exact h'
        by_cases hemp : (simRow sim t inds.length k).isEmpty = true
        · rw [if_pos hemp]
          exact ih st hlt' hinv hirest hiu
        · rw [if_neg hemp]
          have hiNot : i ∉ (simRow sim t inds.length k).filter
              (fun j => !(st.used.contains j)) := by
            intro hc
            have := (List.mem_filter.mp hc).1
            exact (hiso k hk).2 (mem_simRow.mp this).2
          cases hsort : sortByLen (((simRow sim t inds.length k).filter
              (fun j => !(st.used.contains j))).map (fun j => inds.getD j "")) with
          | nil =>
            exfalso
            have hne : simRow sim t inds.length k ≠ [] := by
              intro hc
              rw [hc] at hemp
              exact hemp rfl
            have hselfk : t ≤ sim k k := by
              rcases List.exists_mem_of_ne_nil _ hne with ⟨j, hj⟩
              exact hdiag k j (mem_simRow.mp hj).2
            have hkN : k ∈ (simRow sim t inds.length k).filter
                (fun j => !(st.used.contains j)) := by
              rw [List.mem_filter]
              refine ⟨mem_simRow.mpr ⟨hlt k (List.mem_cons_self _ _), hselfk⟩, ?_⟩
              rw [Bool.not_eq_eq_eq_not, Bool.not_true, ← Bool.not_eq_true]
              intro hc
              exact hku (List.elem_iff.mp hc)
            have hpc := sortByLen_perm (((simRow sim t inds.length k).filter
              (fun j => !(st.used.contains j))).map (fun j => inds.getD j ""))
            rw [hsort] at hpc
            have := hpc.symm.mem_iff.mp (List.mem_map.mpr ⟨k, hkN, rfl⟩)
            cases this
          | cons rep sorted =>
            rcases scanStep_inv hnd hinv hsort with ⟨hinv1, _⟩
            refine ih _ hlt' hinv1 hirest ?_
            intro hc
            rcases List.mem_append.mp hc with h' | h'
            · exact hiu h'
            · exact hiNot h'

/-- C1 (amended/corrected): an indicator whose "similar" set collected in
the scan step has exactly one element (itself) IS present in the mapping
returned by `cluster_indicators` — mapped to itself — because the code
records size-one groups like any other group. -/
theorem cluster_indicators_singleton_self (inds : List String) (sim : ℕ → ℕ → ℚ) (t : ℚ)
    (hnd : inds.Nodup) (hdiag : ∀ i j, t ≤ sim i j → t ≤ sim i i)
    (hvoc : (buildVocabulary (inds.map (fun s => preprocess_text (some s)))).isEmpty = false)
    {i : ℕ} (hi : i < inds.length) (hself : t ≤ sim i i)
    (hiso : ∀ k, k ≠ i → ¬ t ≤ sim i k ∧ ¬ t ≤ sim k i) :
    ∃ m, cluster_indicators inds sim t = .ok m ∧
      dictFind (inds.getD i "") m = some (inds.getD i "") := by
  rcases scanLoop_isolated hnd hdiag hi hself hiso (List.range inds.length) ⟨[], []⟩
    (fun k hk => List.mem_range.mp hk) (scanInv_init inds sim t)
    (List.mem_range.mpr hi) (List.not_mem_nil i) with ⟨st', hok, hinv', hmem⟩
  refine ⟨flattenClusters st'.clusters, ?_, ?_⟩
  · unfold cluster_indicators
    rw [if_neg (by rw [hvoc]; intro hc; cases hc)]
    show (scanClusters inds sim t).map (fun st => flattenClusters st.clusters) = _
    unfold scanClusters
    rw [hok]
    rfl
  · rw [flattenClusters_eq (hinv'.members_nodup hnd)]
    exact @dictFind_clusterPairs st'.clusters (inds.getD i "", [inds.getD i ""])
      (inds.getD i "") (hinv'.members_nodup hnd) hmem (List.mem_cons_self _ _)

/-- C1 counterexample: for the one-indicator corpus `["apple"]` at the
default threshold the similar set of `"apple"` is exactly itself, yet it
appears as a key of the returned mapping (mapped to itself), contrary to
the claim that singletons are absent. -/
theorem cluster_indicators_singleton_counterexample :
    cluster_indicators ["apple"] (fun _ _ => 1) defaultThreshold =
      .ok [("apple", "apple")] ∧
    dictFind "apple" [("apple", "apple")] = some "apple" := ⟨rfl, rfl⟩

theorem cluster_indicators_singleton_self_witness :
    ∃ m, cluster_indicators ["apple"]
        (fun i j => if i = 0 ∧ j = 0 then 1 else 0) defaultThreshold = .ok m ∧
      dictFind (["apple"].getD 0 "") m = some (["apple"].getD 0 "") := by
  refine cluster_indicators_singleton_self ["apple"]
    (fun i j => if i = 0 ∧ j = 0 then 1 else 0) defaultThreshold (by decide) ?_ rfl
    (by decide) ?_ ?_
  · intro i j h
    by_cases h0 : i = 0
    · subst h0
      show defaultThreshold ≤ if 0 = 0 ∧ 0 = 0 then (1 : ℚ) else 0
      rw [if_pos ⟨rfl, rfl⟩]
      decide
    · have h' : (if i = 0 ∧ j = 0 then (1 : ℚ) else 0) = 0 :=
        if_neg (fun hc => h0 hc.1)
      have h'' : defaultThreshold ≤ (0 : ℚ) := by
        rw [← h']
        exact h
      exact absurd h'' (by decide)
  · show defaultThreshold ≤ if 0 = 0 ∧ 0 = 0 then (1 : ℚ) else 0
    rw [if_pos ⟨rfl, rfl⟩]
    decide
  · intro k hk
    constructor
    · show ¬ defaultThreshold ≤ if 0 = 0 ∧ k = 0 then (1 : ℚ) else 0
      rw [if_neg (fun hc => hk hc.2)]
      decide
    · show ¬ defaultThreshold ≤ if k = 0 ∧ 0 = 0 then (1 : ℚ) else 0
      rw [if_neg (fun hc => hk hc.1)]
      decide

/-! ### Claim C3: pairs, groups and representatives -/

/-- C3 (amended/corrected): when the scan succeeds on distinct
indicators, all members of one collected group map to that group's
common representative, which is a member of the group of minimal string
length; the group is the length-sorted image of the indices collected in
input order and the representative is the group's first member of
minimal length — for ties, the first-seen one.  (Two indicators whose
similarity reaches the threshold but which land in different groups are
NOT guaranteed a common representative; see the counterexample.) -/
theorem cluster_indicators_group_rep (inds : List String) (sim : ℕ → ℕ → ℚ) (t : ℚ)
    (hnd : inds.Nodup) (hdiag : ∀ i j, t ≤ sim i j → t ≤ sim i i)
    (hvoc : (buildVocabulary (inds.map (fun s => preprocess_text (some s)))).isEmpty = false) :
    (∃ st', scanClusters inds sim t = .ok st' ∧
      cluster_indicators inds sim t = .ok (flattenClusters st'.clusters) ∧
      ∀ rc ∈ st'.clusters, rc.1 ∈ rc.2 ∧
        (∀ x ∈ rc.2, dictFind x (flattenClusters st'.clusters) = some rc.1 ∧
          rc.1.length ≤ x.length) ∧
        (∃ idxs : List ℕ, idxs ≠ [] ∧
          rc.2 = sortByLen (idxs.map (fun j => inds.getD j "")) ∧
          firstMinByLen (idxs.map (fun j => inds.getD j "")) = some rc.1)) ∧
    (∀ (c : List String) (m : String), firstMinByLen c = some m →
      m ∈ c ∧ (∀ y ∈ c, m.length ≤ y.length) ∧
      ∃ pre suf, c = pre ++ m :: suf ∧ ∀ y ∈ pre, m.length < y.length) := by
  constructor
  · rcases scanLoop_master hnd hdiag (List.range inds.length) ⟨[], []⟩
      (fun i hi => List.mem_range.mp hi) (scanInv_init inds sim t) with
      ⟨st', hok, hinv', _, _⟩
    have hscan : scanClusters inds sim t = .ok st' := hok
    refine ⟨st', hscan, ?_, ?_⟩
    · unfold cluster_indicators
      rw [if_neg (by rw [hvoc]; intro hc; cases hc), hscan]
      rfl
    · intro rc hrc
      rcases hinv'.cluster_spec rc hrc with ⟨i0, idxs, hne, hnodup, hbound, heq, hfm⟩
      refine ⟨hinv'.rep_mem hrc, ?_, idxs, ?_, heq, hfm⟩
      · intro x hx
        refine ⟨?_, ?_⟩
        · rw [flattenClusters_eq (hinv'.members_nodup hnd)]
          exact dictFind_clusterPairs (hinv'.members_nodup hnd) hrc hx
        · refine firstMinByLen_le hfm x ?_
          rw [heq] at hx
          exact (sortByLen_perm _).mem_iff.mp hx
      · intro hc
        rw [hc] at hne
        exact hne rfl
  · intro c m h
    exact ⟨firstMinByLen_mem h, firstMinByLen_le h, firstMinByLen_first h⟩

theorem cluster_indicators_group_rep_witness :
    "a" ∈ ["bb", "a"] ∧ (∀ y ∈ ["bb", "a"], ("a").length ≤ y.length) ∧
      ∃ pre suf, ["bb", "a"] = pre ++ "a" :: suf ∧
        ∀ y ∈ pre, ("a").length < y.length :=
  (cluster_indicators_group_rep ["apple"] (fun _ _ => 1) 1 (by decide)
    (fun _ _ h => h) rfl).2 ["bb", "a"] "a" rfl

/-! ### Concrete TF-IDF corpora for the counterexamples

For corpora in which every token occurs in exactly two documents the IDF
weights are all equal, so the cosine similarities are the cosines of the
raw token-count vectors; choosing counts that form Pythagorean tuples
makes these values exactly rational.

First corpus: document 0 has counts (3,4) on tokens (pp,qq), document 1
has counts (9,12,12,16) on (pp,qq,rr,ss) — norm 25 — and document 2 has
counts (3,4) on (rr,ss).  The cosines are sim(0,1) = (27+48)/125 = 3/5,
sim(1,2) = (36+64)/125 = 4/5 and sim(0,2) = 0, with unit diagonal. -/

def tfidfDocA : String :=
  String.intercalate " " (List.replicate 3 "pp" ++ List.replicate 4 "qq")

def tfidfDocB : String :=
  String.intercalate " " (List.replicate 9 "pp" ++ List.replicate 12 "qq" ++
    List.replicate 12 "rr" ++ List.replicate 16 "ss")

def tfidfDocC : String :=
  String.intercalate " " (List.replicate 3 "rr" ++ List.replicate 4 "ss")

def q45 : ℚ := ⟨4, 5, by norm_num, by norm_num⟩

/-- The TF-IDF cosine-similarity matrix of `[tfidfDocA, tfidfDocB, tfidfDocC]`. -/
def simABC : ℕ → ℕ → ℚ := fun i j =>
  (([[1, defaultThreshold, 0], [defaultThreshold, 1, q45], [0, q45, 1]].getD i []).getD j 0)

/-- Second corpus: document 0 has counts (20,21) on (pp,qq) — norm 29 —
document 1 has counts (12,3,4) on (pp,rr,ss) — norm 13 — and document 2
has counts (12,3,4) on (qq,rr,ss).  The cosines are
sim(0,1) = 240/377, sim(0,2) = 252/377 (both above 3/5) and
sim(1,2) = 25/169 (below 3/5), with unit diagonal. -/

def tfidfDocD : String :=
  String.intercalate " " (List.replicate 20 "pp" ++ List.replicate 21 "qq")

def tfidfDocE : String :=
  String.intercalate " " (List.replicate 12 "pp" ++ List.replicate 3 "rr" ++
    List.replicate 4 "ss")

def tfidfDocF : String :=
  String.intercalate " " (List.replicate 12 "qq" ++ List.replicate 3 "rr" ++
    List.replicate 4 "ss")

def q240377 : ℚ := ⟨240, 377, by norm_num, by norm_num⟩

def q252377 : ℚ := ⟨252, 377, by norm_num, by norm_num⟩

def q25169 : ℚ := ⟨25, 169, by norm_num, by norm_num⟩

/-- The TF-IDF cosine-similarity matrix of `[tfidfDocD, tfidfDocE, tfidfDocF]`. -/
def simDEF : ℕ → ℕ → ℚ := fun i j =>
  (([[1, q240377, q252377], [q240377, 1, q25169], [q252377, q25169, 1]].getD i []).getD j 0)

set_option maxRecDepth 100000 in
/-- C3 counterexample, two parts.  First: in the corpus A,B,C the pair
(B,C) has similarity 4/5 ≥ 3/5, yet B is swept into A's group first and
maps to A while C maps to itself — a ≥-threshold pair need not share a
representative.  Second: in the corpus D,E,F the pair (D,F) has
similarity 252/377 ≥ 3/5 and does share a representative, but that
representative is E — not a member of the pair, hence not the shorter of
the two. -/
theorem cluster_indicators_pair_counterexample :
    (defaultThreshold ≤ simABC 1 2 ∧
      cluster_indicators [tfidfDocA, tfidfDocB, tfidfDocC] simABC defaultThreshold =
        .ok [(tfidfDocA, tfidfDocA), (tfidfDocB, tfidfDocA), (tfidfDocC, tfidfDocC)] ∧
      dictFind tfidfDocB
        [(tfidfDocA, tfidfDocA), (tfidfDocB, tfidfDocA), (tfidfDocC, tfidfDocC)] =
        some tfidfDocA ∧
      dictFind tfidfDocC
        [(tfidfDocA, tfidfDocA), (tfidfDocB, tfidfDocA), (tfidfDocC, tfidfDocC)] =
        some tfidfDocC ∧
      tfidfDocA ≠ tfidfDocC) ∧
    (defaultThreshold ≤ simDEF 0 2 ∧
      cluster_indicators [tfidfDocD, tfidfDocE, tfidfDocF] simDEF defaultThreshold =
        .ok [(tfidfDocE, tfidfDocE), (tfidfDocF, tfidfDocE), (tfidfDocD, tfidfDocE)] ∧
      dictFind tfidfDocD
        [(tfidfDocE, tfidfDocE), (tfidfDocF, tfidfDocE), (tfidfDocD, tfidfDocE)] =
        some tfidfDocE ∧
      dictFind tfidfDocF
        [(tfidfDocE, tfidfDocE), (tfidfDocF, tfidfDocE), (tfidfDocD, tfidfDocE)] =
        some tfidfDocE ∧
      tfidfDocE ≠ tfidfDocD ∧ tfidfDocE ≠ tfidfDocF ∧
      tfidfDocF.length < tfidfDocD.length) :=
  ⟨⟨by decide, by rfl, by rfl, by rfl, by decide⟩,
   ⟨by decide, by rfl, by rfl, by rfl, by decide, by decide, by decide⟩⟩

/-! ### Claim C6: merging at threshold 1 -/

theorem memberList_unique {cl : List (String × List String)}
    (hnd : (memberList cl).Nodup) {rc1 rc2 : String × List String} {z : String}
    (h1 : rc1 ∈ cl) (h2 : rc2 ∈ cl) (hz1 : z ∈ rc1.2) (hz2 : z ∈ rc2.2) :
    rc1 = rc2 := by
  induction cl with
  | nil => cases h1
  | cons rc0 cl' ih =>
    have hml : memberList (rc0 :: cl') = rc0.2 ++ memberList cl' := by
      unfold memberList
      rw [List.map_cons, List.flatten_cons]
    rw [hml] at hnd
    rcases List.mem_cons.mp h1 with h1' | h1' <;> rcases List.mem_cons.mp h2 with h2' | h2'
    · rw [h1', h2']
    · exfalso
      subst h1'
      exact (List.disjoint_of_nodup_append hnd) hz1 (mem_memberList h2' hz2)
    · exfalso
      subst h2'
      exact (List.disjoint_of_nodup_append hnd) hz2 (mem_memberList h1' hz1)
    · exact ih hnd.of_append_right h1' h2'

/-- C6 (amended/corrected): with `similarity_threshold = 1.0`, two
distinct indicators receive the same representative only if their
similarity is (at least) 1 — for TF-IDF cosines, parallel vectors.
Byte-identity of the normalized forms is NOT required: documents with
the same token multiset have cosine exactly 1 and merge, as the
counterexample shows. -/
theorem cluster_indicators_threshold_one (inds : List String) (sim : ℕ → ℕ → ℚ)
    (hnd : inds.Nodup) (hsym : ∀ i j, sim i j = sim j i)
    (htrans : ∀ a b c, 1 ≤ sim a b → 1 ≤ sim a c → 1 ≤ sim b c)
    (m : List (String × String)) (hok : cluster_indicators inds sim 1 = .ok m)
    (x y r : String) (hx : dictFind x m = some r) (hy : dictFind y m = some r)
    (hxy : x ≠ y) :
    ∃ ix iy, ix < inds.length ∧ iy < inds.length ∧ ix ≠ iy ∧
      inds.getD ix "" = x ∧ inds.getD iy "" = y ∧ 1 ≤ sim ix iy := by
  have hdiag : ∀ i j, (1 : ℚ) ≤ sim i j → (1 : ℚ) ≤ sim i i := by
    intro i j h
    have h' : (1 : ℚ) ≤ sim j i := by
      rw [hsym j i]
      exact h
    exact htrans j i i h' h'
  unfold cluster_indicators at hok
  by_cases hv : (buildVocabulary (inds.map (fun s => preprocess_text (some s)))).isEmpty = true
  · rw [if_pos hv] at hok
    cases hok
  · rw [if_neg hv] at hok
    rcases scanLoop_master hnd hdiag (List.range inds.length) ⟨[], []⟩
      (fun i hi => List.mem_range.mp hi) (scanInv_init inds sim 1) with
      ⟨st', hscan, hinv', _, _⟩
    have hscan' : scanClusters inds sim 1 = .ok st' := hscan
    rw [hscan'] at hok
    cases hok
    have hmlnd := hinv'.members_nodup hnd
    rw [show (fun st => flattenClusters st.clusters) st' =
      flattenClusters st'.clusters from rfl] at hx hy
    rw [flattenClusters_eq hmlnd] at hx hy
    rcases dictFind_clusterPairs_converse hx with ⟨rcx, hrcx, hxm, hrx⟩
    rcases dictFind_clusterPairs_converse hy with ⟨rcy, hrcy, hym, hry⟩
    have hrr : rcx = rcy := by
      refine @memberList_unique st'.clusters hmlnd rcx rcy r hrcx hrcy ?_ ?_
      · rw [← hrx]
        exact hinv'.rep_mem hrcx
      · rw [← hry]
        exact hinv'.rep_mem hrcy
    subst hrr
    rcases hinv'.cluster_spec rcx hrcx with ⟨i0, idxs, _, _, hbound, heq, _⟩
    rw [heq] at hxm hym
    have hxm' := (sortByLen_perm _).mem_iff.mp hxm
    have hym' := (sortByLen_perm _).mem_iff.mp hym
    rcases List.mem_map.mp hxm' with ⟨ix, hix, hixe⟩
    rcases List.mem_map.mp hym' with ⟨iy, hiy, hiye⟩
    refine ⟨ix, iy, (hbound ix hix).1, (hbound iy hiy).1, ?_, hixe, hiye, ?_⟩
    · intro hc
      rw [hc, hiye] at hixe
      exact hxy hixe.symm
    · have h1 : (1 : ℚ) ≤ sim i0 ix := (hbound ix hix).2
      have h2 : (1 : ℚ) ≤ sim i0 iy := (hbound iy hiy).2
      exact htrans i0 ix iy h1 h2

/-- C6 counterexample: `"apple banana"` and `"banana apple"` have the
same token counts, so their TF-IDF cosine similarity is exactly 1; at
threshold 1.0 they merge to a common representative although their
normalized forms differ. -/
theorem cluster_indicators_threshold_one_counterexample :
    cluster_indicators ["apple banana", "banana apple"] (fun _ _ => 1) 1 =
      .ok [("apple banana", "apple banana"), ("banana apple", "apple banana")] ∧
    dictFind "apple banana"
      [("apple banana", "apple banana"), ("banana apple", "apple banana")] =
      some "apple banana" ∧
    dictFind "banana apple"
      [("apple banana", "apple banana"), ("banana apple", "apple banana")] =
      some "apple banana" ∧
    "apple banana" ≠ "banana apple" ∧
    preprocess_text (some "apple banana") ≠ preprocess_text (some "banana apple") :=
  ⟨rfl, rfl, rfl, by decide, by decide⟩

theorem cluster_indicators_threshold_one_witness :
    ∃ ix iy, ix < (["apple banana", "banana apple"] : List String).length ∧
      iy < (["apple banana", "banana apple"] : List String).length ∧ ix ≠ iy ∧
      (["apple banana", "banana apple"] : List String).getD ix "" = "apple banana" ∧
      (["apple banana", "banana apple"] : List String).getD iy "" = "banana apple" ∧
      (1 : ℚ) ≤ (fun _ _ => (1 : ℚ)) ix iy :=
  cluster_indicators_threshold_one ["apple banana", "banana apple"] (fun _ _ => 1)
    (by decide) (fun _ _ => rfl) (fun _ _ _ h _ => h)
    [("apple banana", "apple banana"), ("banana apple", "apple banana")] rfl
    "apple banana" "banana apple" "apple banana" rfl rfl (by decide)

/-! ## The merge/export stage of `main` (lines 134-138) -/

/-- One row of the loaded spreadsheet: its `Indicator` cell (possibly
missing) and the cells of all other columns. -/
structure InputRow where
  indicator : Option String
  rest : List (Option String)

/-- One exported row: the original cells plus the two attached columns. -/
structure OutputRow where
  indicator : Option String
  rest : List (Option String)
  clusteredIndicator : Option String
  topicName : Option String

/-- `df['Clustered_Indicator'] = df['Indicator'].map(indicator_clusters)`
and `df['Topic_Name'] = df['Indicator'].map(indicator_to_topic)`: a
missing `Indicator` or a key absent from a mapping yields a null cell. -/
def mergeExport (rows : List InputRow) (clusterMap topicMap : List (String × String)) :
    List OutputRow :=
  rows.map (fun r =>
    { indicator := r.indicator, rest := r.rest,
      clusteredIndicator := r.indicator.bind (fun s => dictFind s clusterMap),
      topicName := r.indicator.bind (fun s => dictFind s topicMap) })

/-- C9: the merge/export stage preserves the row count exactly (also for
empty tables), leaves every pre-existing column unchanged row-for-row,
and attaches null cluster/topic cells to rows whose `Indicator` is
missing or absent from a mapping. -/
theorem mergeExport_spec (rows : List InputRow) (cm tm : List (String × String)) :
    (mergeExport rows cm tm).length = rows.length ∧
    (mergeExport rows cm tm).map OutputRow.indicator = rows.map InputRow.indicator ∧
    (mergeExport rows cm tm).map OutputRow.rest = rows.map InputRow.rest ∧
    ∀ r ∈ mergeExport rows cm tm,
      (r.indicator = none → r.clusteredIndicator = none ∧ r.topicName = none) ∧
      (∀ s, r.indicator = some s →
        r.clusteredIndicator = dictFind s cm ∧ r.topicName = dictFind s tm) := by
  refine ⟨List.length_map _ _, ?_, ?_, ?_⟩
  · rw [mergeExport, List.map_map]
    rfl
  · rw [mergeExport, List.map_map]
    rfl
  · intro r hr
    rcases List.mem_map.mp hr with ⟨a, _, rfl⟩
    constructor
    · intro hnone
      have ha : a.indicator = none := hnone
      constructor
      · show a.indicator.bind (fun s => dictFind s cm) = none
        rw [ha]
        rfl
      · show a.indicator.bind (fun s => dictFind s tm) = none
        rw [ha]
        rfl
    · intro s hs
      have ha : a.indicator = some s := hs
      constructor
      · show a.indicator.bind (fun z => dictFind z cm) = dictFind s cm
        rw [ha]
        rfl
      · show a.indicator.bind (fun z => dictFind z tm) = dictFind s tm
        rw [ha]
        rfl

theorem mergeExport_spec_witness :
    (mergeExport [{ indicator := none, rest := [some "x"] }] [] []).length =
      ([{ indicator := none, rest := [some "x"] }] : List InputRow).length :=
  (mergeExport_spec [{ indicator := none, rest := [some "x"] }] [] []).1

/-! ## Topic naming (`perform_bertopic_clustering`, lines 88-107)

The sentence-embedding model, HDBSCAN and the BERTopic fit are external
numeric dependencies; their outputs are injected: `topics` is the
per-indicator topic-id sequence of `fit_transform`,  `topicInfoIds` is
`topic_info['Topic'].unique()` and `getTopic` is
`topic_model.get_topic`. -/

/-- Python's `str.lower()` (ASCII fragment). -/
def lowerString (s : String) : String :=
  String.mk (s.data.map Char.toLower)

/-- Does the second list occur as a prefix of the first? -/
def listStartsWith : List Char → List Char → Bool
  | [], _ => true
  | _ :: _, [] => false
  | p :: ps, c :: cs => p == c && listStartsWith ps cs

/-- Python's substring test `pat in hay`. -/
def listContainsSub : List Char → List Char → Bool
  | [], pat => pat.isEmpty
  | c :: rest, pat => listStartsWith pat (c :: rest) || listContainsSub rest pat

def containsSubstr (hay pat : String) : Bool :=
  listContainsSub hay.data pat.data

/-- `[doc for doc in indicators if any(word[0] in doc.lower() for word in
topic_words[:3])]`: the indicators whose lowercase text contains one of
the topic's top-3 terms. -/
def qualifyingDocs (indicators : List String) (topicWords : List (String × ℚ)) :
    List String :=
  indicators.filter (fun doc =>
    (topicWords.take 3).any (fun w => containsSubstr (lowerString doc) w.1))

/-- The `topic_to_name` dictionary: for every non-noise id of
`topic_info` with a non-empty term list and at least one qualifying
document, the first shortest qualifying document (`min(..., key=len)`). -/
def topicToName (indicators : List String) (topicInfoIds : List Int)
    (getTopic : Int → List (String × ℚ)) : List (Int × String) :=
  topicInfoIds.foldl (fun d topic =>
    if topic ≠ -1 then
      if (getTopic topic).isEmpty then d
      else
        match firstMinByLen (qualifyingDocs indicators (getTopic topic)) with
        | some nm => dictInsert topic nm d
        | none => d
    else d) []

/-- The `topic_mapping` dict comprehension over the id sequence, with the
`"Outlier"` fallback for `-1` and for ids missing from `topic_to_name`. -/
def topicMapping (topics : List Int) (t2n : List (Int × String)) : List (Int × String) :=
  topics.foldl (fun d idx =>
    dictInsert idx (if idx = -1 then "Outlier" else (dictFind idx t2n).getD "Outlier") d) []

/-- Shallow embedding of `perform_bertopic_clustering`: returns the
injected topic-id sequence unchanged together with the id → name
mapping. -/
def perform_bertopic_clustering (indicators : List String) (topics : List Int)
    (topicInfoIds : List Int) (getTopic : Int → List (String × ℚ)) :
    List Int × List (Int × String) :=
  (topics, topicMapping topics (topicToName indicators topicInfoIds getTopic))

theorem topicMapping_append (l : List Int) (x : Int) (t2n : List (Int × String)) :
    topicMapping (l ++ [x]) t2n =
      dictInsert x (if x = -1 then "Outlier" else (dictFind x t2n).getD "Outlier")
        (topicMapping l t2n) := by
  unfold topicMapping
  rw [List.foldl_append]
  rfl

theorem dictFind_topicMapping_mem {top : Int} {t2n : List (Int × String)} :
    ∀ {topics : List Int}, top ∈ topics →
      dictFind top (topicMapping topics t2n) =
        some (if top = -1 then "Outlier" else (dictFind top t2n).getD "Outlier") := by
  intro topics
  induction topics using List.reverseRecOn with
  | nil => intro h; cases h
  | append_singleton l x ih =>
    intro h
    rw [topicMapping_append]
    by_cases htx : top = x
    · subst htx
      rw [dictFind_dictInsert_self]
    · rw [dictFind_dictInsert_ne _ htx]
      rcases List.mem_append.mp h with h' | h'
      · exact ih h'
      · rw [List.mem_singleton] at h'
        exact absurd h' htx

theorem dictFind_topicMapping_not_mem {top : Int} {t2n : List (Int × String)} :
    ∀ {topics : List Int}, top ∉ topics →
      dictFind top (topicMapping topics t2n) = none := by
  intro topics
  induction topics using List.reverseRecOn with
  | nil => intro _; rfl
  | append_singleton l x ih =>
    intro h
    rw [topicMapping_append]
    have htx : top ≠ x := fun hc => h (List.mem_append_right _ (hc ▸ List.mem_singleton_self _))
    rw [dictFind_dictInsert_ne _ htx]
    exact ih (fun hc => h (List.mem_append_left _ hc))

theorem topicToName_append (inds : List String) (l : List Int) (x : Int)
    (g : Int → List (String × ℚ)) :
    topicToName inds (l ++ [x]) g =
      (if x ≠ -1 then
        if (g x).isEmpty then topicToName inds l g
        else
          match firstMinByLen (qualifyingDocs inds (g x)) with
          | some nm => dictInsert x nm (topicToName inds l g)
          | none => topicToName inds l g
      else topicToName inds l g) := by
  unfold topicToName
  rw [List.foldl_append]
  rfl

theorem dictFind_topicToName_not_mem {id : Int} {inds : List String}
    {g : Int → List (String × ℚ)} :
    ∀ {infoIds : List Int}, id ∉ infoIds →
      dictFind id (topicToName inds infoIds g) = none := by
  intro infoIds
  induction infoIds using List.reverseRecOn with
  | nil => intro _; rfl
  | append_singleton l x ih =>
    intro h
    have hne : id ≠ x := fun hc => h (List.mem_append_right _ (hc ▸ List.mem_singleton_self _))
    have hrec := ih (fun hc => h (List.mem_append_left _ hc))
    rw [topicToName_append]
    by_cases hx : x ≠ -1
    · rw [if_pos hx]
      by_cases hw : (g x).isEmpty = true
      · rw [if_pos hw]
        exact hrec
      · rw [if_neg hw]
        cases hfm : firstMinByLen (qualifyingDocs inds (g x)) with
        | some nm =>
          rw [dictFind_dictInsert_ne _ hne]
          exact hrec
        | none => exact hrec
    · rw [if_neg hx]
      exact hrec

theorem dictFind_topicToName_named {id : Int} {inds : List String} {nm : String}
    {g : Int → List (String × ℚ)} (hne : id ≠ -1)
    (hw : (g id).isEmpty = false)
    (hq : firstMinByLen (qualifyingDocs inds (g id)) = some nm) :
    ∀ {infoIds : List Int}, infoIds.Nodup → id ∈ infoIds →
      dictFind id (topicToName inds infoIds g) = some nm := by
  intro infoIds
  induction infoIds using List.reverseRecOn with
  | nil => intro _ h; cases h
  | append_singleton l x ih =>
    intro hnd hmem
    rw [topicToName_append]
    by_cases htx : id = x
    · subst htx
      rw [if_pos hne, if_neg (by rw [hw]; intro hc; cases hc), hq]
      rw [dictFind_dictInsert_self]
    · have hid : id ∈ l := by
        rcases List.mem_append.mp hmem with h' | h'
        · exact h'
        · rw [List.mem_singleton] at h'
          exact absurd h' htx
      have hrec := ih hnd.of_append_left hid
      by_cases hx : x ≠ -1
      · rw [if_pos hx]
        by_cases hwx : (g x).isEmpty = true
        · rw [if_pos hwx]
          exact hrec
        · rw [if_neg hwx]
          cases hfm : firstMinByLen (qualifyingDocs inds (g x)) with
          | some nm' =>
            rw [dictFind_dictInsert_ne _ htx]
            exact hrec
          | none => exact hrec
      · rw [if_neg hx]
        exact hrec

theorem dictFind_topicToName_skipped {id : Int} {inds : List String}
    {g : Int → List (String × ℚ)}
    (hskip : id = -1 ∨ (g id).isEmpty = true ∨
      firstMinByLen (qualifyingDocs inds (g id)) = none) :
    ∀ {infoIds : List Int},
      dictFind id (topicToName inds infoIds g) = none := by
  intro infoIds
  induction infoIds using List.reverseRecOn with
  | nil => rfl
  | append_singleton l x ih =>
    rw [topicToName_append]
    by_cases htx : id = x
    · subst htx
      rcases hskip with h' | h' | h'
      · rw [if_neg (by rw [h']; intro hc; exact hc rfl)]
        exact ih
      · by_cases hxne : id ≠ -1
        · rw [if_pos hxne, if_pos h']
          exact ih
        · rw [if_neg hxne]
          exact ih
      · by_cases hxne : id ≠ -1
        · rw [if_pos hxne]
          by_cases hw : (g id).isEmpty = true
          · rw [if_pos hw]
            exact ih
          · rw [if_neg hw, h']
            exact ih
        · rw [if_neg hxne]
          exact ih
    · by_cases hx : x ≠ -1
      · rw [if_pos hx]
        by_cases hw : (g x).isEmpty = true
        · rw [if_pos hw]
          exact ih
        · rw [if_neg hw]
          cases hfm : firstMinByLen (qualifyingDocs inds (g x)) with
          | some nm' =>
            rw [dictFind_dictInsert_ne _ htx]
            exact ih
          | none => exact ih
      · rw [if_neg hx]
        exact ih

/-- C10: the topic-name mapping returned by
`perform_bertopic_clustering` names exactly the ids occurring in the
returned topic sequence; every id of the sequence has a name — so the
lookup `topic_mapping[top]` in `main` can never raise a `KeyError` —
with `"Outlier"` for `-1`, for ids outside the topic-info table, for ids
without terms and for ids with no qualifying document; a non-noise id
with qualifying documents is named by the first shortest indicator whose
lowercase text contains one of the topic's top-3 terms. -/
theorem perform_bertopic_clustering_spec (indicators : List String) (topics : List Int)
    (topicInfoIds : List Int) (getTopic : Int → List (String × ℚ))
    (hnd : topicInfoIds.Nodup) :
    (perform_bertopic_clustering indicators topics topicInfoIds getTopic).1 = topics ∧
    (∀ id : Int,
      (dictFind id
        (perform_bertopic_clustering indicators topics topicInfoIds getTopic).2).isSome = true ↔
        id ∈ topics) ∧
    (∀ top ∈ topics,
      dictFind top (perform_bertopic_clustering indicators topics topicInfoIds getTopic).2 =
        some (if top = -1 then "Outlier"
          else (dictFind top (topicToName indicators topicInfoIds getTopic)).getD "Outlier")) ∧
    (∀ id ∈ topics, ∀ nm : String, id ∈ topicInfoIds → id ≠ -1 →
      (getTopic id).isEmpty = false →
      firstMinByLen (qualifyingDocs indicators (getTopic id)) = some nm →
      dictFind id (perform_bertopic_clustering indicators topics topicInfoIds getTopic).2 =
        some nm) ∧
    (∀ id ∈ topics,
      (id = -1 ∨ id ∉ topicInfoIds ∨ (getTopic id).isEmpty = true ∨
        firstMinByLen (qualifyingDocs indicators (getTopic id)) = none) →
      dictFind id (perform_bertopic_clustering indicators topics topicInfoIds getTopic).2 =
        some "Outlier") ∧
    (∀ (tw : List (String × ℚ)) (nm : String),
      firstMinByLen (qualifyingDocs indicators tw) = some nm →
      nm ∈ qualifyingDocs indicators tw ∧
      ∀ y ∈ qualifyingDocs indicators tw, nm.length ≤ y.length) := by
  have hmap : (perform_bertopic_clustering indicators topics topicInfoIds getTopic).2 =
      topicMapping topics (topicToName indicators topicInfoIds getTopic) := rfl
  refine ⟨rfl, ?_, ?_, ?_, ?_, ?_⟩
  · intro id
    rw [hmap]
    constructor
    · intro h
      by_contra hc
      rw [dictFind_topicMapping_not_mem hc] at h
      cases h
    · intro h
      rw [dictFind_topicMapping_mem h]
      rfl
  · intro top htop
    rw [hmap]
    exact dictFind_topicMapping_mem htop
  · intro id hid nm hinfo hne hw hq
    rw [hmap, dictFind_topicMapping_mem hid, if_neg hne,
      dictFind_topicToName_named hne hw hq hnd hinfo]
    rfl
  · intro id hid hskip
    rw [hmap, dictFind_topicMapping_mem hid]
    rcases hskip with h' | h' | h' | h'
    · rw [if_pos h']
    · by_cases hne : id = -1
      · rw [if_pos hne]
      · rw [if_neg hne, dictFind_topicToName_not_mem h']
        rfl
    · by_cases hne : id = -1
      · rw [if_pos hne]
      · rw [if_neg hne, dictFind_topicToName_skipped (Or.inr (Or.inl h'))]
        rfl
    · by_cases hne : id = -1
      · rw [if_pos hne]
      · rw [if_neg hne, dictFind_topicToName_skipped (Or.inr (Or.inr h'))]
        rfl
  · intro tw nm h
    exact ⟨firstMinByLen_mem h, firstMinByLen_le h⟩

theorem perform_bertopic_clustering_spec_witness :
    (dictFind 0 (perform_bertopic_clustering ["apple pie", "nut"] [0, -1] [-1, 0]
        (fun i => if i = 0 then [("apple", 1)] else [])).2).isSome = true ↔
      (0 : Int) ∈ ([0, -1] : List Int) :=
  (perform_bertopic_clustering_spec ["apple pie", "nut"] [0, -1] [-1, 0]
    (fun i => if i = 0 then [("apple", 1)] else []) (by decide)).2.1 0

/-- C7 counterexample: the non-empty distinct list `["!!"]` normalizes to
an empty document, so the vectorizer raises its empty-vocabulary
`ValueError` at threshold 0.0 instead of producing a single cluster. -/
theorem cluster_indicators_zero_threshold_counterexample :
    cluster_indicators ["!!"] (fun _ _ => 1) 0 =
      .error "ValueError: empty vocabulary; perhaps the documents only contain stop words" := rfl
